import Mathlib

/-!
Verification development for the MCPP chunk streaming and meshing pipeline.

The definitions below are a shallow embedding of the C++ sources:

* `Chunk` (block storage, `getBlock` / `setBlock` / `generate`) from
  `src/Game/World/Generation/Chunk.cpp` and `Chunk.h`;
* the surface sampler height computation from
  `src/Game/World/Generation/Surface.cpp` (`ImprovedSurface::sampleColumn`);
* world-to-chunk coordinate decomposition and block lookup from
  `src/Game/World/ChunkManager.cpp`;
* the pipeline step functions (generation worker, meshing worker, upload
  drain, `reloadAllChunks`) from `src/Game/World/ChunkManager.cpp`;
* the greedy mesher (`greedyScan2D`, per-face mask construction and
  `buildGreedyMesh`) from `src/Game/World/Meshing/Greedy.cpp`.

Machine integers are modelled as `Int`/`Nat` (block ids are small bytes that
are only ever compared, never overflowed).  The block registry
(`BlockDatabase::isOpaque`) is an external read-only lookup and is modelled
as an arbitrary function `op : Nat → Bool`; cross-chunk world lookups
(`MinecraftApp::getBlock`) are modelled as an arbitrary environment
function where a claim quantifies over the neighbouring world.
-/

namespace MCPP

/-- Chunk dimensions, from `Chunk.h` (`CHUNK_SIZE = 16`, `CHUNK_HEIGHT = 128`). -/
def CHUNK_SIZE : Nat := 16

/-- Vertical chunk extent, from `Chunk.h`. -/
def CHUNK_HEIGHT : Nat := 128

/-- Per-column surface description, from `Surface.h` (`SurfaceSample`). -/
structure SurfaceSample where
  height : Int
  topBlock : Nat
  fillerBlock : Nat
  stoneBlock : Nat

/-- State of one chunk: its chunk-grid coordinate, the dense block grid
(`m_blocks[x][y][z]`, only indices inside the chunk bounds are meaningful),
the dirty flag and the vertex count of its uploaded geometry. -/
structure ChunkData where
  chunkPos : Int × Int × Int
  blocks : Nat → Nat → Nat → Nat
  dirty : Bool
  vertexCount : Nat

/-- Out-of-range test used by `Chunk::getBlock` and `Chunk::setBlock`. -/
def outOfRange (x y z : Int) : Prop :=
  x < 0 ∨ (CHUNK_SIZE : Int) ≤ x ∨ y < 0 ∨ (CHUNK_HEIGHT : Int) ≤ y ∨
    z < 0 ∨ (CHUNK_SIZE : Int) ≤ z

instance (x y z : Int) : Decidable (outOfRange x y z) :=
  inferInstanceAs (Decidable (_ ∨ _ ∨ _ ∨ _ ∨ _ ∨ _))

/-- `Chunk::getBlock` from `Chunk.cpp`: air (0) outside the bounds,
otherwise the stored block id. -/
def Chunk.getBlock (c : ChunkData) (x y z : Int) : Nat :=
  if outOfRange x y z then 0
  else c.blocks x.toNat y.toNat z.toNat

/-- `Chunk::setBlock` from `Chunk.cpp`: no-op outside the bounds, otherwise
writes the cell and marks the chunk dirty. -/
def Chunk.setBlock (c : ChunkData) (x y z : Int) (t : Nat) : ChunkData :=
  if outOfRange x y z then c
  else { c with
          blocks := fun a b g =>
            if a = x.toNat ∧ b = y.toNat ∧ g = z.toNat then t
            else c.blocks a b g,
          dirty := true }

/-- Per-cell block id chosen by the loop body of `Chunk::generate`:
air above `min(height, CHUNK_HEIGHT-1)`, the top block at the surface
height, filler for the three cells beneath, base stone below. -/
def columnBlock (s : SurfaceSample) (y : Nat) : Nat :=
  let maxY : Int := min s.height ((CHUNK_HEIGHT : Int) - 1)
  if (y : Int) > maxY then 0
  else if (y : Int) = s.height then s.topBlock
  else if (y : Int) ≥ s.height - 3 then s.fillerBlock
  else s.stoneBlock

/-- Inner `y` loop of `Chunk::generate`: writes the whole column `(x, z)`
from the surface sample `s` via `setBlock`. -/
def generateColumn (x z : Nat) (s : SurfaceSample) (c : ChunkData) :
    ChunkData :=
  (List.range CHUNK_HEIGHT).foldl
    (fun cy (y : Nat) => Chunk.setBlock cy x y z (columnBlock s y)) c

/-- Middle `z` loop of `Chunk::generate`: samples the surface at the world
coordinates of each column `(x, z)` and fills it. -/
def generateZ (sampler : Int → Int → SurfaceSample) (x : Nat)
    (c : ChunkData) : ChunkData :=
  (List.range CHUNK_SIZE).foldl (fun cz (z : Nat) =>
    let s := sampler (cz.chunkPos.1 * (CHUNK_SIZE : Int) + (x : Int))
      (cz.chunkPos.2.2 * (CHUNK_SIZE : Int) + (z : Int))
    generateColumn x z s cz) c

/-- Outer `x` loop of `Chunk::generate`. -/
def generateX (sampler : Int → Int → SurfaceSample) (c : ChunkData) :
    ChunkData :=
  (List.range CHUNK_SIZE).foldl (fun cx (x : Nat) => generateZ sampler x cx) c

/-- `Chunk::markDirty` from `Chunk.h`: sets the dirty flag. -/
def Chunk.markDirty (c : ChunkData) (d : Bool) : ChunkData :=
  { c with dirty := d }

/-- `Chunk::generate` from `Chunk.cpp`: for every column of the chunk,
sample the surface at the world coordinates of the column and write the
whole column via `setBlock`, then mark the chunk dirty. -/
def Chunk.generate (c : ChunkData) (sampler : Int → Int → SurfaceSample) :
    ChunkData :=
  Chunk.markDirty (generateX sampler c) true

theorem markDirty_blocks (c : ChunkData) (d : Bool) :
    (Chunk.markDirty c d).blocks = c.blocks := rfl

theorem markDirty_chunkPos (c : ChunkData) (d : Bool) :
    (Chunk.markDirty c d).chunkPos = c.chunkPos := rfl

theorem setBlock_chunkPos (c : ChunkData) (x y z : Int) (t : Nat) :
    (Chunk.setBlock c x y z t).chunkPos = c.chunkPos := by
  unfold Chunk.setBlock
  split <;> rfl

theorem setBlock_blocks_of_inRange (c : ChunkData) (x y z : Nat)
    (hx : x < CHUNK_SIZE) (hy : y < CHUNK_HEIGHT) (hz : z < CHUNK_SIZE)
    (t : Nat) :
    (Chunk.setBlock c x y z t).blocks = fun a b g =>
      if a = x ∧ b = y ∧ g = z then t else c.blocks a b g := by
  unfold Chunk.setBlock
  rw [if_neg]
  · simp
  · unfold outOfRange CHUNK_SIZE CHUNK_HEIGHT at *
    omega

theorem gen_col_chunkPos (c : ChunkData) (x z : Nat) (v : Nat → Nat)
    (n : Nat) :
    ((List.range n).foldl
      (fun cy (y : Nat) => Chunk.setBlock cy x y z (v y)) c).chunkPos
      = c.chunkPos := by
  induction n generalizing c with
  | zero => rfl
  | succ n ih =>
    rw [List.range_succ, List.foldl_append, List.foldl_cons, List.foldl_nil,
      setBlock_chunkPos, ih]

theorem gen_col_blocks (c : ChunkData) (x z : Nat)
    (hx : x < CHUNK_SIZE) (hz : z < CHUNK_SIZE) (v : Nat → Nat)
    (n : Nat) (hn : n ≤ CHUNK_HEIGHT) (a b g : Nat) :
    ((List.range n).foldl
      (fun cy (y : Nat) => Chunk.setBlock cy x y z (v y)) c).blocks a b g
      = if a = x ∧ b < n ∧ g = z then v b else c.blocks a b g := by
  induction n generalizing c with
  | zero => simp
  | succ n ih =>
    rw [List.range_succ, List.foldl_append, List.foldl_cons, List.foldl_nil]
    rw [setBlock_blocks_of_inRange _ _ _ _ hx (by omega) hz]
    beta_reduce
    by_cases hab : a = x ∧ b = n ∧ g = z
    · rw [if_pos hab, if_pos ⟨hab.1, by omega, hab.2.2⟩, hab.2.1]
    · rw [if_neg hab, ih c (by omega)]
      by_cases hab2 : a = x ∧ b < n ∧ g = z
      · rw [if_pos hab2, if_pos ⟨hab2.1, by omega, hab2.2.2⟩]
      · rw [if_neg hab2, if_neg (by
          intro h
          rcases h with ⟨h1, h2, h3⟩
          by_cases hb : b = n
          · exact hab ⟨h1, hb, h3⟩
          · exact hab2 ⟨h1, by omega, h3⟩)]

theorem generateColumn_chunkPos (x z : Nat) (s : SurfaceSample)
    (c : ChunkData) : (generateColumn x z s c).chunkPos = c.chunkPos :=
  gen_col_chunkPos c x z (columnBlock s) CHUNK_HEIGHT

theorem generateColumn_blocks (x z : Nat) (hx : x < CHUNK_SIZE)
    (hz : z < CHUNK_SIZE) (s : SurfaceSample) (c : ChunkData) (a b g : Nat) :
    (generateColumn x z s c).blocks a b g =
      if a = x ∧ b < CHUNK_HEIGHT ∧ g = z then columnBlock s b
      else c.blocks a b g :=
  gen_col_blocks c x z hx hz (columnBlock s) CHUNK_HEIGHT le_rfl a b g

theorem gen_z_chunkPos (c : ChunkData) (f : Int → Int → SurfaceSample)
    (x : Nat) (m : Nat) :
    ((List.range m).foldl (fun cz (z : Nat) =>
      let s := f (cz.chunkPos.1 * (CHUNK_SIZE : Int) + (x : Int))
        (cz.chunkPos.2.2 * (CHUNK_SIZE : Int) + (z : Int))
      generateColumn x z s cz) c).chunkPos = c.chunkPos := by
  induction m generalizing c with
  | zero => rfl
  | succ m ih =>
    rw [List.range_succ, List.foldl_append, List.foldl_cons, List.foldl_nil]
    simp only [generateColumn_chunkPos]
    exact ih c

theorem gen_z_blocks (c : ChunkData) (f : Int → Int → SurfaceSample)
    (x : Nat) (hx : x < CHUNK_SIZE) (m : Nat) (hm : m ≤ CHUNK_SIZE)
    (a b g : Nat) :
    ((List.range m).foldl (fun cz (z : Nat) =>
      let s := f (cz.chunkPos.1 * (CHUNK_SIZE : Int) + (x : Int))
        (cz.chunkPos.2.2 * (CHUNK_SIZE : Int) + (z : Int))
      generateColumn x z s cz) c).blocks a b g =
      if a = x ∧ b < CHUNK_HEIGHT ∧ g < m then
        columnBlock (f (c.chunkPos.1 * (CHUNK_SIZE : Int) + (x : Int))
          (c.chunkPos.2.2 * (CHUNK_SIZE : Int) + (g : Int))) b
      else c.blocks a b g := by
  induction m generalizing c with
  | zero => simp
  | succ m ih =>
    rw [List.range_succ, List.foldl_append, List.foldl_cons, List.foldl_nil]
    simp only []
    rw [generateColumn_blocks x m hx (by omega)]
    rw [gen_z_chunkPos c f x m]
    by_cases hab : a = x ∧ b < CHUNK_HEIGHT ∧ g = m
    · rw [if_pos hab, if_pos ⟨hab.1, hab.2.1, by omega⟩, hab.2.2]
    · rw [if_neg hab, ih c (by omega)]
      by_cases hab2 : a = x ∧ b < CHUNK_HEIGHT ∧ g < m
      · rw [if_pos hab2, if_pos ⟨hab2.1, hab2.2.1, by omega⟩]
      · rw [if_neg hab2, if_neg (by
          intro h
          rcases h with ⟨h1, h2, h3⟩
          by_cases hg : g = m
          · exact hab ⟨h1, h2, hg⟩
          · exact hab2 ⟨h1, h2, by omega⟩)]

theorem generateZ_chunkPos (f : Int → Int → SurfaceSample) (x : Nat)
    (c : ChunkData) : (generateZ f x c).chunkPos = c.chunkPos :=
  gen_z_chunkPos c f x CHUNK_SIZE

theorem generateZ_blocks (f : Int → Int → SurfaceSample) (x : Nat)
    (hx : x < CHUNK_SIZE) (c : ChunkData) (a b g : Nat) :
    (generateZ f x c).blocks a b g =
      if a = x ∧ b < CHUNK_HEIGHT ∧ g < CHUNK_SIZE then
        columnBlock (f (c.chunkPos.1 * (CHUNK_SIZE : Int) + (x : Int))
          (c.chunkPos.2.2 * (CHUNK_SIZE : Int) + (g : Int))) b
      else c.blocks a b g :=
  gen_z_blocks c f x hx CHUNK_SIZE le_rfl a b g

theorem gen_x_chunkPos (c : ChunkData) (f : Int → Int → SurfaceSample)
    (n : Nat) :
    ((List.range n).foldl (fun cx (x : Nat) => generateZ f x cx) c).chunkPos
      = c.chunkPos := by
  induction n generalizing c with
  | zero => rfl
  | succ n ih =>
    rw [List.range_succ, List.foldl_append, List.foldl_cons, List.foldl_nil]
    rw [generateZ_chunkPos, ih c]

theorem gen_x_blocks (c : ChunkData) (f : Int → Int → SurfaceSample)
    (n : Nat) (hn : n ≤ CHUNK_SIZE) (a b g : Nat) :
    ((List.range n).foldl (fun cx (x : Nat) => generateZ f x cx) c).blocks
      a b g =
      if a < n ∧ b < CHUNK_HEIGHT ∧ g < CHUNK_SIZE then
        columnBlock (f (c.chunkPos.1 * (CHUNK_SIZE : Int) + (a : Int))
          (c.chunkPos.2.2 * (CHUNK_SIZE : Int) + (g : Int))) b
      else c.blocks a b g := by
  induction n generalizing c with
  | zero => simp
  | succ n ih =>
    rw [List.range_succ, List.foldl_append, List.foldl_cons, List.foldl_nil]
    rw [generateZ_blocks f n (by omega)]
    rw [gen_x_chunkPos c f n]
    by_cases hab : a = n ∧ b < CHUNK_HEIGHT ∧ g < CHUNK_SIZE
    · rw [if_pos hab, if_pos ⟨by omega, hab.2.1, hab.2.2⟩, hab.1]
    · rw [if_neg hab, ih c (by omega)]
      by_cases hab2 : a < n ∧ b < CHUNK_HEIGHT ∧ g < CHUNK_SIZE
      · rw [if_pos hab2, if_pos ⟨by omega, hab2.2.1, hab2.2.2⟩]
      · rw [if_neg hab2, if_neg (by
          intro h
          rcases h with ⟨h1, h2, h3⟩
          by_cases ha : a = n
          · exact hab ⟨ha, h2, h3⟩
          · exact hab2 ⟨by omega, h2, h3⟩)]

/-- Pointwise description of the block grid written by `Chunk::generate`:
every in-bounds cell holds exactly the layered column value for the surface
sample of its world column, and out-of-bounds function values are
untouched.  In particular the result does not depend on the previous
contents of the grid. -/
theorem generate_blocks (c : ChunkData) (f : Int → Int → SurfaceSample)
    (a b g : Nat) :
    (Chunk.generate c f).blocks a b g =
      if a < CHUNK_SIZE ∧ b < CHUNK_HEIGHT ∧ g < CHUNK_SIZE then
        columnBlock (f (c.chunkPos.1 * (CHUNK_SIZE : Int) + (a : Int))
          (c.chunkPos.2.2 * (CHUNK_SIZE : Int) + (g : Int))) b
      else c.blocks a b g := by
  unfold Chunk.generate
  rw [markDirty_blocks]
  unfold generateX
  exact gen_x_blocks c f CHUNK_SIZE le_rfl a b g

theorem generate_chunkPos (c : ChunkData) (f : Int → Int → SurfaceSample) :
    (Chunk.generate c f).chunkPos = c.chunkPos := by
  unfold Chunk.generate
  rw [markDirty_chunkPos]
  unfold generateX
  exact gen_x_chunkPos c f CHUNK_SIZE

/-- The `Chunk` constructor from `Chunk.cpp`: blocks all air, dirty flag
set (`m_dirty{true}` in `Chunk.h`), no geometry. -/
def Chunk.new (p : Int × Int × Int) : ChunkData :=
  { chunkPos := p, blocks := fun _ _ _ => 0, dirty := true, vertexCount := 0 }

/-- Two chunks hold byte-identical block grids (all in-bounds cells). -/
def sameBlockGrid (c₁ c₂ : ChunkData) : Prop :=
  ∀ x < CHUNK_SIZE, ∀ y < CHUNK_HEIGHT, ∀ z < CHUNK_SIZE,
    c₁.blocks x y z = c₂.blocks x y z

/-- A sequence of external `setBlock` edits applied to a chunk. -/
def applyEdits (c : ChunkData) (es : List (Int × Int × Int × Nat)) :
    ChunkData :=
  es.foldl (fun ch e => Chunk.setBlock ch e.1 e.2.1 e.2.2.1 e.2.2.2) c

theorem applyEdits_chunkPos (c : ChunkData)
    (es : List (Int × Int × Int × Nat)) :
    (applyEdits c es).chunkPos = c.chunkPos := by
  unfold applyEdits
  induction es generalizing c with
  | nil => rfl
  | cons e es ih => rw [List.foldl_cons, ih, setBlock_chunkPos]

/-- Claim C3: for every coordinate outside
`[0,CHUNK_SIZE) × [0,CHUNK_HEIGHT) × [0,CHUNK_SIZE)` — including negative
and arbitrarily large values — `Chunk::getBlock` returns the air id 0 and
`Chunk::setBlock` is a no-op leaving the chunk state (block grid and dirty
flag) unchanged. -/
theorem getBlock_setBlock_out_of_range (c : ChunkData) (x y z : Int)
    (t : Nat)
    (h : ¬ (0 ≤ x ∧ x < (CHUNK_SIZE : Int) ∧ 0 ≤ y ∧
      y < (CHUNK_HEIGHT : Int) ∧ 0 ≤ z ∧ z < (CHUNK_SIZE : Int))) :
    Chunk.getBlock c x y z = 0 ∧ Chunk.setBlock c x y z t = c := by
  have ho : outOfRange x y z := by
    unfold outOfRange
    by_contra hc
    push_neg at hc
    exact h ⟨by omega, by omega, by omega, by omega, by omega, by omega⟩
  exact ⟨by unfold Chunk.getBlock; rw [if_pos ho],
    by unfold Chunk.setBlock; rw [if_pos ho]⟩

/-- Witness for C3 at the concrete out-of-range coordinate (-1, 0, 0). -/
theorem getBlock_setBlock_out_of_range_witness :
    Chunk.getBlock (Chunk.new (0, 0, 0)) (-1) 0 0 = 0 ∧
    Chunk.setBlock (Chunk.new (0, 0, 0)) (-1) 0 0 5 = Chunk.new (0, 0, 0) :=
  getBlock_setBlock_out_of_range (Chunk.new (0, 0, 0)) (-1) 0 0 5
    (by decide)

/-- Claim C4: `Chunk::generate` is deterministic (chunks at the same chunk
coordinate generated from the same sampler get byte-identical block grids)
and idempotent (generating twice equals generating once). -/
theorem generate_deterministic_idempotent (c₁ c₂ : ChunkData)
    (f : Int → Int → SurfaceSample) (h : c₁.chunkPos = c₂.chunkPos) :
    sameBlockGrid (Chunk.generate c₁ f) (Chunk.generate c₂ f) ∧
    sameBlockGrid (Chunk.generate (Chunk.generate c₁ f) f)
      (Chunk.generate c₁ f) := by
  constructor
  · intro x hx y hy z hz
    rw [generate_blocks, generate_blocks, if_pos ⟨hx, hy, hz⟩,
      if_pos ⟨hx, hy, hz⟩, h]
  · intro x hx y hy z hz
    rw [generate_blocks, generate_blocks, if_pos ⟨hx, hy, hz⟩,
      if_pos ⟨hx, hy, hz⟩, generate_chunkPos]

/-- Witness for C4 at two concrete chunks sharing coordinate (0,0,0) and a
concrete sampler. -/
theorem generate_deterministic_idempotent_witness :
    sameBlockGrid
      (Chunk.generate (Chunk.new (0, 0, 0)) (fun _ _ => ⟨10, 3, 2, 1⟩))
      (Chunk.generate (Chunk.setBlock (Chunk.new (0, 0, 0)) 1 2 3 7)
        (fun _ _ => ⟨10, 3, 2, 1⟩)) ∧
    sameBlockGrid
      (Chunk.generate
        (Chunk.generate (Chunk.new (0, 0, 0)) (fun _ _ => ⟨10, 3, 2, 1⟩))
        (fun _ _ => ⟨10, 3, 2, 1⟩))
      (Chunk.generate (Chunk.new (0, 0, 0)) (fun _ _ => ⟨10, 3, 2, 1⟩)) :=
  generate_deterministic_idempotent (Chunk.new (0, 0, 0))
    (Chunk.setBlock (Chunk.new (0, 0, 0)) 1 2 3 7) (fun _ _ => ⟨10, 3, 2, 1⟩)
    (setBlock_chunkPos (Chunk.new (0, 0, 0)) 1 2 3 7).symm

/-- Claim C10: the grid written by `Chunk::generate` does not depend on the
chunk's prior block contents — any sequence of earlier `setBlock` edits is
discarded by regeneration, because `generate` overwrites every in-bounds
cell. -/
theorem generate_ignores_prior_edits (c : ChunkData)
    (f : Int → Int → SurfaceSample) (es : List (Int × Int × Int × Nat)) :
    sameBlockGrid (Chunk.generate (applyEdits c es) f) (Chunk.generate c f) := by
  intro x hx y hy z hz
  rw [generate_blocks, generate_blocks, if_pos ⟨hx, hy, hz⟩,
    if_pos ⟨hx, hy, hz⟩, applyEdits_chunkPos]

/-- The surface sample used by `Chunk::generate` for the column `(x, z)`
of chunk `c`: the sampler evaluated at the world coordinates of that
column. -/
def worldColumnSample (c : ChunkData) (f : Int → Int → SurfaceSample)
    (x z : Nat) : SurfaceSample :=
  f (c.chunkPos.1 * (CHUNK_SIZE : Int) + (x : Int))
    (c.chunkPos.2.2 * (CHUNK_SIZE : Int) + (z : Int))

/-- Claim C7: fixed-depth layering of a generated column — the cell at the
sample height holds the top block, the three cells beneath hold the filler
block, everything further down is base stone, and everything above the
sample height is air. -/
theorem generate_column_layering (c : ChunkData)
    (f : Int → Int → SurfaceSample) (x y z : Nat)
    (hx : x < CHUNK_SIZE) (hy : y < CHUNK_HEIGHT) (hz : z < CHUNK_SIZE) :
    ((y : Int) = (worldColumnSample c f x z).height →
      (Chunk.generate c f).blocks x y z = (worldColumnSample c f x z).topBlock) ∧
    ((worldColumnSample c f x z).height - 3 ≤ (y : Int) ∧
        (y : Int) < (worldColumnSample c f x z).height →
      (Chunk.generate c f).blocks x y z = (worldColumnSample c f x z).fillerBlock) ∧
    ((y : Int) < (worldColumnSample c f x z).height - 3 →
      (Chunk.generate c f).blocks x y z = (worldColumnSample c f x z).stoneBlock) ∧
    ((worldColumnSample c f x z).height < (y : Int) →
      (Chunk.generate c f).blocks x y z = 0) := by
  rw [generate_blocks c f x y z, if_pos ⟨hx, hy, hz⟩]
  have hs : f (c.chunkPos.1 * (CHUNK_SIZE : Int) + (x : Int))
      (c.chunkPos.2.2 * (CHUNK_SIZE : Int) + (z : Int))
      = worldColumnSample c f x z := rfl
  rw [hs]
  set s := worldColumnSample c f x z with hsdef
  unfold columnBlock
  have hy128 : (y : Int) < (CHUNK_HEIGHT : Int) := by
    unfold CHUNK_HEIGHT at *
    omega
  refine ⟨?_, ?_, ?_, ?_⟩
  · intro h
    rw [if_neg (by omega), if_pos h]
  · intro h
    rw [if_neg (by omega), if_neg (by omega), if_pos (by omega)]
  · intro h
    rw [if_neg (by omega), if_neg (by omega), if_neg (by omega)]
  · intro h
    rw [if_pos (by omega)]

/-- Witness for C7 at a concrete chunk, sampler and in-bounds cell. -/
theorem generate_column_layering_witness :
    (((3 : Nat) : Int) = (worldColumnSample (Chunk.new (0, 0, 0))
        (fun _ _ => ⟨10, 3, 2, 1⟩) 4 5).height →
      (Chunk.generate (Chunk.new (0, 0, 0))
        (fun _ _ => ⟨10, 3, 2, 1⟩)).blocks 4 3 5 =
        (worldColumnSample (Chunk.new (0, 0, 0))
          (fun _ _ => ⟨10, 3, 2, 1⟩) 4 5).topBlock) ∧
    ((worldColumnSample (Chunk.new (0, 0, 0))
        (fun _ _ => ⟨10, 3, 2, 1⟩) 4 5).height - 3 ≤ ((3 : Nat) : Int) ∧
        ((3 : Nat) : Int) < (worldColumnSample (Chunk.new (0, 0, 0))
          (fun _ _ => ⟨10, 3, 2, 1⟩) 4 5).height →
      (Chunk.generate (Chunk.new (0, 0, 0))
        (fun _ _ => ⟨10, 3, 2, 1⟩)).blocks 4 3 5 =
        (worldColumnSample (Chunk.new (0, 0, 0))
          (fun _ _ => ⟨10, 3, 2, 1⟩) 4 5).fillerBlock) ∧
    (((3 : Nat) : Int) < (worldColumnSample (Chunk.new (0, 0, 0))
        (fun _ _ => ⟨10, 3, 2, 1⟩) 4 5).height - 3 →
      (Chunk.generate (Chunk.new (0, 0, 0))
        (fun _ _ => ⟨10, 3, 2, 1⟩)).blocks 4 3 5 =
        (worldColumnSample (Chunk.new (0, 0, 0))
          (fun _ _ => ⟨10, 3, 2, 1⟩) 4 5).stoneBlock) ∧
    ((worldColumnSample (Chunk.new (0, 0, 0))
        (fun _ _ => ⟨10, 3, 2, 1⟩) 4 5).height < ((3 : Nat) : Int) →
      (Chunk.generate (Chunk.new (0, 0, 0))
        (fun _ _ => ⟨10, 3, 2, 1⟩)).blocks 4 3 5 = 0) :=
  generate_column_layering (Chunk.new (0, 0, 0)) (fun _ _ => ⟨10, 3, 2, 1⟩)
    4 3 5 (by decide) (by decide) (by decide)

/-- Height computation of `ImprovedSurface::sampleColumn` from
`Surface.cpp`: water level plus the truncated terrain-noise value, clamped
to `[0, 255]`.  The FastNoiseLite terrain noise is an external library;
its truncated integer contribution (`static_cast<int>(terrainHeight)`) is
taken as the parameter `t`. -/
def sampleColumnHeight (waterLevel : Int) (t : Int) : Int :=
  max 0 (min 255 (waterLevel + t))

/-- Default `TerrainParams::waterLevel` from `Noise.h`. -/
def defaultWaterLevel : Int := 48

/-- Counterexample to claim C8: with the default water level 48 and a
terrain-noise contribution of 80 (reachable: the mountain term alone
contributes up to `mountainHeightMultiplier = 80`, and the snow branch in
`sampleColumn` explicitly tests for heights above 120), the sampled height
is 128, which is not strictly less than `CHUNK_HEIGHT = 128`. -/
theorem sample_height_can_reach_chunk_height :
    sampleColumnHeight defaultWaterLevel 80 = 128 ∧
    ¬ (sampleColumnHeight defaultWaterLevel 80 < (CHUNK_HEIGHT : Int)) := by
  constructor
  · decide
  · show ¬ (sampleColumnHeight defaultWaterLevel 80 < ((128 : Nat) : Int))
    decide

/-- Amended claim C8: the sampled height is the water-level baseline plus
the noise contribution clamped to `[0, 255]` (the full 256-block world
range, not `[0, CHUNK_HEIGHT)`); `Chunk::generate` performs its own
clamping to the chunk height via `min(height, CHUNK_HEIGHT - 1)`. -/
theorem sample_height_clamped_to_world_range (waterLevel t : Int) :
    0 ≤ sampleColumnHeight waterLevel t ∧
    sampleColumnHeight waterLevel t ≤ 255 ∧
    (0 ≤ waterLevel + t → waterLevel + t ≤ 255 →
      sampleColumnHeight waterLevel t = waterLevel + t) := by
  unfold sampleColumnHeight
  omega

/-- Witness for the amended C8 at water level 48 and noise value 10. -/
theorem sample_height_clamped_to_world_range_witness :
    0 ≤ sampleColumnHeight defaultWaterLevel 10 ∧
    sampleColumnHeight defaultWaterLevel 10 ≤ 255 ∧
    sampleColumnHeight defaultWaterLevel 10 = defaultWaterLevel + 10 :=
  ⟨(sample_height_clamped_to_world_range defaultWaterLevel 10).1,
    (sample_height_clamped_to_world_range defaultWaterLevel 10).2.1,
    (sample_height_clamped_to_world_range defaultWaterLevel 10).2.2
      (by decide) (by decide)⟩

/-- `ChunkManager::getChunkCoords` from `ChunkManager.cpp`: the chunk-grid
coordinate of a world position via `std::floor(x / 16.0f)`.  The float
holds the integer coordinate and the division by 16 exactly, so on
integers this is flooring division (`Int.fdiv`). -/
def getChunkCoords (p : Int × Int × Int) : Int × Int × Int :=
  (Int.fdiv p.1 (CHUNK_SIZE : Int), 0, Int.fdiv p.2.2 (CHUNK_SIZE : Int))

/-- `ChunkManager::getBlockLocalCoords` from `ChunkManager.cpp`:
truncating `%` by `CHUNK_SIZE` with a `+= CHUNK_SIZE` fix-up for negative
results; `y` is passed through unchanged. -/
def getBlockLocalCoords (p : Int × Int × Int) : Int × Int × Int :=
  let lx := Int.tmod p.1 (CHUNK_SIZE : Int)
  let lx2 := if lx < 0 then lx + (CHUNK_SIZE : Int) else lx
  let lz := Int.tmod p.2.2 (CHUNK_SIZE : Int)
  let lz2 := if lz < 0 then lz + (CHUNK_SIZE : Int) else lz
  (lx2, p.2.1, lz2)

theorem tmod_chunk_size_bounds (a : Int) :
    -(CHUNK_SIZE : Int) < Int.tmod a (CHUNK_SIZE : Int) ∧
    Int.tmod a (CHUNK_SIZE : Int) < (CHUNK_SIZE : Int) := by
  constructor
  · rcases a with m | m
    · have h := Int.tmod_nonneg (CHUNK_SIZE : Int)
        (show (0 : Int) ≤ Int.ofNat m by exact Int.ofNat_nonneg m)
      unfold CHUNK_SIZE at *
      omega
    · have h : Int.tmod (Int.negSucc m) (CHUNK_SIZE : Int)
          = -Int.ofNat ((m + 1) % CHUNK_SIZE) := rfl
      have h2 : (m + 1) % CHUNK_SIZE < CHUNK_SIZE :=
        Nat.mod_lt _ (by unfold CHUNK_SIZE; omega)
      have h3 : Int.ofNat ((m + 1) % CHUNK_SIZE)
          = (((m + 1) % CHUNK_SIZE : Nat) : Int) := rfl
      rw [h, h3]
      unfold CHUNK_SIZE at *
      omega
  · exact Int.tmod_lt_of_pos a (by unfold CHUNK_SIZE; omega)

theorem tmod_fixup_eq_emod (a : Int) :
    (if Int.tmod a (CHUNK_SIZE : Int) < 0 then
      Int.tmod a (CHUNK_SIZE : Int) + (CHUNK_SIZE : Int)
    else Int.tmod a (CHUNK_SIZE : Int)) = a % (CHUNK_SIZE : Int) := by
  have h1 := Int.tdiv_add_tmod a (CHUNK_SIZE : Int)
  have h2 := tmod_chunk_size_bounds a
  unfold CHUNK_SIZE at *
  split <;> omega

abbrev ChunkCoord := Int × Int × Int

/-- An entry of the upload queue (`ChunkManager::MeshTask`): a chunk
coordinate together with the meshed vertex data.  The vertex payload type
is kept abstract; the pipeline claims hold for every mesh payload. -/
structure MeshTask (V : Type) where
  chunkCoords : ChunkCoord
  vertices : V

/-- The shared pipeline state of `ChunkManager`: the chunk collection
(`m_chunks`, an unordered map modelled as an association list) and the
three work queues. -/
structure PipelineState (V : Type) where
  chunks : List (ChunkCoord × ChunkData)
  generationQueue : List ChunkCoord
  meshingQueue : List ChunkCoord
  uploadQueue : List (MeshTask V)

/-- Lookup `m_chunks.find(coords)`. -/
def findChunk (chunks : List (ChunkCoord × ChunkData)) (k : ChunkCoord) :
    Option ChunkData :=
  match chunks.find? (fun p => decide (p.1 = k)) with
  | none => none
  | some p => some p.2

/-- `ChunkManager::getBlock` from `ChunkManager.cpp`: split the world
position into chunk coordinate and local coordinates, look the chunk up,
return air when the chunk is absent or the local y is out of range, and
otherwise the chunk's block at the local cell. -/
def managerGetBlock (chunks : List (ChunkCoord × ChunkData))
    (x y z : Int) : Nat :=
  let chunkCoords := getChunkCoords (x, y, z)
  let localc := getBlockLocalCoords (x, y, z)
  match findChunk chunks chunkCoords with
  | none => 0
  | some ch =>
    if localc.2.1 < 0 ∨ (CHUNK_HEIGHT : Int) ≤ localc.2.1 then 0
    else Chunk.getBlock ch localc.1 localc.2.1 localc.2.2

/-- Claim C9: for every integer world coordinate (negative included) the
decomposition of `ChunkManager::getChunkCoords` and
`ChunkManager::getBlockLocalCoords` is the floored-division /
floored-modulo decomposition: chunk coordinate times `CHUNK_SIZE` plus the
local coordinate reconstructs the world coordinate, the local coordinates
lie in `[0, CHUNK_SIZE)` and equal the floored modulo of the world
coordinate; consequently `ChunkManager::getBlock` resolves every lookup,
negative coordinates included, to the chunk at the floored-division
coordinate and the cell at the floored-modulo local position. -/
theorem chunk_coord_decomposition (x y z : Int) :
    (getChunkCoords (x, y, z)).1 * (CHUNK_SIZE : Int) +
      (getBlockLocalCoords (x, y, z)).1 = x ∧
    (getChunkCoords (x, y, z)).2.2 * (CHUNK_SIZE : Int) +
      (getBlockLocalCoords (x, y, z)).2.2 = z ∧
    0 ≤ (getBlockLocalCoords (x, y, z)).1 ∧
    (getBlockLocalCoords (x, y, z)).1 < (CHUNK_SIZE : Int) ∧
    0 ≤ (getBlockLocalCoords (x, y, z)).2.2 ∧
    (getBlockLocalCoords (x, y, z)).2.2 < (CHUNK_SIZE : Int) ∧
    (getBlockLocalCoords (x, y, z)).1 = x % (CHUNK_SIZE : Int) ∧
    (getBlockLocalCoords (x, y, z)).2.2 = z % (CHUNK_SIZE : Int) ∧
    (getBlockLocalCoords (x, y, z)).2.1 = y ∧
    (∀ chunks : List (ChunkCoord × ChunkData),
      managerGetBlock chunks x y z =
        match findChunk chunks
          (Int.fdiv x (CHUNK_SIZE : Int), 0, Int.fdiv z (CHUNK_SIZE : Int))
          with
        | none => 0
        | some ch =>
          if y < 0 ∨ (CHUNK_HEIGHT : Int) ≤ y then 0
          else Chunk.getBlock ch (x % (CHUNK_SIZE : Int)) y
            (z % (CHUNK_SIZE : Int))) := by
  have hx := tmod_fixup_eq_emod x
  have hz := tmod_fixup_eq_emod z
  have hfx : Int.fdiv x (CHUNK_SIZE : Int) = x / (CHUNK_SIZE : Int) :=
    Int.fdiv_eq_ediv x (by unfold CHUNK_SIZE; omega)
  have hfz : Int.fdiv z (CHUNK_SIZE : Int) = z / (CHUNK_SIZE : Int) :=
    Int.fdiv_eq_ediv z (by unfold CHUNK_SIZE; omega)
  have hmgr : ∀ chunks : List (ChunkCoord × ChunkData),
      managerGetBlock chunks x y z =
        match findChunk chunks
          (Int.fdiv x (CHUNK_SIZE : Int), 0, Int.fdiv z (CHUNK_SIZE : Int))
          with
        | none => 0
        | some ch =>
          if y < 0 ∨ (CHUNK_HEIGHT : Int) ≤ y then 0
          else Chunk.getBlock ch (x % (CHUNK_SIZE : Int)) y
            (z % (CHUNK_SIZE : Int)) := by
    intro chunks
    unfold managerGetBlock getChunkCoords getBlockLocalCoords
    dsimp only []
    rw [hx, hz]
  have hmain : (getChunkCoords (x, y, z)).1 * (CHUNK_SIZE : Int) +
      (getBlockLocalCoords (x, y, z)).1 = x ∧
      (getChunkCoords (x, y, z)).2.2 * (CHUNK_SIZE : Int) +
        (getBlockLocalCoords (x, y, z)).2.2 = z ∧
      0 ≤ (getBlockLocalCoords (x, y, z)).1 ∧
      (getBlockLocalCoords (x, y, z)).1 < (CHUNK_SIZE : Int) ∧
      0 ≤ (getBlockLocalCoords (x, y, z)).2.2 ∧
      (getBlockLocalCoords (x, y, z)).2.2 < (CHUNK_SIZE : Int) ∧
      (getBlockLocalCoords (x, y, z)).1 = x % (CHUNK_SIZE : Int) ∧
      (getBlockLocalCoords (x, y, z)).2.2 = z % (CHUNK_SIZE : Int) ∧
      (getBlockLocalCoords (x, y, z)).2.1 = y := by
    unfold getChunkCoords getBlockLocalCoords
    dsimp only []
    rw [hx, hz, hfx, hfz]
    unfold CHUNK_SIZE at *
    omega
  exact ⟨hmain.1, hmain.2.1, hmain.2.2.1, hmain.2.2.2.1, hmain.2.2.2.2.1,
    hmain.2.2.2.2.2.1, hmain.2.2.2.2.2.2.1, hmain.2.2.2.2.2.2.2.1,
    hmain.2.2.2.2.2.2.2.2, hmgr⟩

/-- In-place mutation of the chunk stored under a coordinate (the workers
mutate the chunk through the pointer obtained from the map). -/
def updateChunk (chunks : List (ChunkCoord × ChunkData)) (k : ChunkCoord)
    (g : ChunkData → ChunkData) : List (ChunkCoord × ChunkData) :=
  chunks.map (fun p => if p.1 = k then (p.1, g p.2) else p)

/-- One loop iteration of `ChunkManager::generationWorker` from
`ChunkManager.cpp`: pop a coordinate from the generation queue; if the
coordinate is no longer in the collection, drop it (`continue`);
otherwise generate the chunk's terrain and push the coordinate onto the
meshing queue. -/
def generationWorkerStep {V : Type} (sampler : Int → Int → SurfaceSample)
    (st : PipelineState V) : PipelineState V :=
  match st.generationQueue with
  | [] => st
  | coords :: rest =>
    match findChunk st.chunks coords with
    | none => { st with generationQueue := rest }
    | some _ =>
      { st with
        generationQueue := rest,
        chunks := updateChunk st.chunks coords
          (fun ch => Chunk.generate ch sampler),
        meshingQueue := st.meshingQueue ++ [coords] }

/-- One loop iteration of `ChunkManager::meshingWorker` from
`ChunkManager.cpp`: pop a coordinate from the meshing queue; if the
coordinate is no longer in the collection, drop it; otherwise build the
mesh from the chunk (and the current collection, for cross-chunk neighbor
lookups) and push a task onto the upload queue. -/
def meshingWorkerStep {V : Type}
    (mesh : List (ChunkCoord × ChunkData) → ChunkData → V)
    (st : PipelineState V) : PipelineState V :=
  match st.meshingQueue with
  | [] => st
  | coords :: rest =>
    match findChunk st.chunks coords with
    | none => { st with meshingQueue := rest }
    | some ch =>
      { st with
        meshingQueue := rest,
        uploadQueue := st.uploadQueue ++ [⟨coords, mesh st.chunks ch⟩] }

/-- `Chunk::uploadMesh` from `Chunk.h` (GPU state elided): records the
vertex count and clears the dirty flag. -/
def Chunk.uploadMesh (c : ChunkData) (n : Nat) : ChunkData :=
  { c with vertexCount := n, dirty := false }

/-- One drain iteration of the upload loop in `ChunkManager::update` from
`ChunkManager.cpp`: pop one task from the upload queue; if its coordinate
is still in the collection, upload the vertices to that chunk and clear
its dirty flag; otherwise drop the task. -/
def uploadStep {V : Type} (count : V → Nat) (st : PipelineState V) :
    PipelineState V :=
  match st.uploadQueue with
  | [] => st
  | task :: rest =>
    match findChunk st.chunks task.chunkCoords with
    | none => { st with uploadQueue := rest }
    | some _ =>
      { st with
        uploadQueue := rest,
        chunks := updateChunk st.chunks task.chunkCoords
          (fun ch =>
            Chunk.markDirty (Chunk.uploadMesh ch (count task.vertices))
              false) }

/-- `ChunkManager::reloadAllChunks` from `ChunkManager.cpp`: clear all
three queues, clear every resident chunk's dirty flag and re-enqueue every
resident coordinate onto the generation queue. -/
def reloadAllChunks {V : Type} (st : PipelineState V) : PipelineState V :=
  { chunks := st.chunks.map (fun p => (p.1, Chunk.markDirty p.2 false)),
    generationQueue := st.chunks.map Prod.fst,
    meshingQueue := [],
    uploadQueue := [] }

/-- Claim C5: whenever a pipeline stage (generation worker, meshing
worker, or the upload drain of `update`) pops a queue entry whose
coordinate is no longer in the chunk collection, it discards the entry and
leaves everything else — in particular the chunk collection — unchanged:
the coordinate is not re-inserted and no chunk is mutated. -/
theorem stale_queue_entries_discarded {V : Type}
    (sampler : Int → Int → SurfaceSample)
    (mesh : List (ChunkCoord × ChunkData) → ChunkData → V)
    (count : V → Nat) (st : PipelineState V) (k : ChunkCoord)
    (grest mrest : List ChunkCoord) (task : MeshTask V)
    (urest : List (MeshTask V)) :
    (st.generationQueue = k :: grest → findChunk st.chunks k = none →
      generationWorkerStep sampler st = { st with generationQueue := grest }) ∧
    (st.meshingQueue = k :: mrest → findChunk st.chunks k = none →
      meshingWorkerStep mesh st = { st with meshingQueue := mrest }) ∧
    (st.uploadQueue = task :: urest →
      findChunk st.chunks task.chunkCoords = none →
      uploadStep count st = { st with uploadQueue := urest }) := by
  refine ⟨?_, ?_, ?_⟩
  · intro hq hf
    unfold generationWorkerStep
    rw [hq]
    simp only [hf]
  · intro hq hf
    unfold meshingWorkerStep
    rw [hq]
    simp only [hf]
  · intro hq hf
    unfold uploadStep
    rw [hq]
    simp only [hf]

/-- Witness for C5: a state whose chunk collection is empty but whose
queues all hold the coordinate (0,0,0). -/
theorem stale_queue_entries_discarded_witness :
    (generationWorkerStep (fun _ _ => ⟨10, 3, 2, 1⟩)
      (⟨[], [(0, 0, 0)], [(0, 0, 0)], [⟨(0, 0, 0), 0⟩]⟩ :
        PipelineState Nat) =
      { (⟨[], [(0, 0, 0)], [(0, 0, 0)], [⟨(0, 0, 0), 0⟩]⟩ :
          PipelineState Nat) with generationQueue := [] }) ∧
    (meshingWorkerStep (fun _ _ => (0 : Nat))
      (⟨[], [(0, 0, 0)], [(0, 0, 0)], [⟨(0, 0, 0), 0⟩]⟩ :
        PipelineState Nat) =
      { (⟨[], [(0, 0, 0)], [(0, 0, 0)], [⟨(0, 0, 0), 0⟩]⟩ :
          PipelineState Nat) with meshingQueue := [] }) ∧
    (uploadStep (fun v => v)
      (⟨[], [(0, 0, 0)], [(0, 0, 0)], [⟨(0, 0, 0), 0⟩]⟩ :
        PipelineState Nat) =
      { (⟨[], [(0, 0, 0)], [(0, 0, 0)], [⟨(0, 0, 0), 0⟩]⟩ :
          PipelineState Nat) with uploadQueue := [] }) := by
  have h := stale_queue_entries_discarded (V := Nat)
    (fun _ _ => ⟨10, 3, 2, 1⟩) (fun _ _ => (0 : Nat)) (fun v => v)
    (⟨[], [(0, 0, 0)], [(0, 0, 0)], [⟨(0, 0, 0), 0⟩]⟩ : PipelineState Nat)
    (0, 0, 0) [] [] ⟨(0, 0, 0), 0⟩ []
  exact ⟨h.1 rfl rfl, h.2.1 rfl rfl, h.2.2 rfl rfl⟩

/-- Claim C6: after `reloadAllChunks`, the meshing and upload queues are
empty, the generation queue holds exactly the coordinates of the resident
chunks (each exactly once, given the map invariant that the collection's
keys are distinct), and no chunk was created or destroyed. -/
theorem reload_requeues_resident_chunks {V : Type} (st : PipelineState V)
    (h : (st.chunks.map Prod.fst).Nodup) :
    (reloadAllChunks st).meshingQueue = [] ∧
    (reloadAllChunks st).uploadQueue = [] ∧
    (reloadAllChunks st).generationQueue = st.chunks.map Prod.fst ∧
    (reloadAllChunks st).generationQueue.Nodup ∧
    (reloadAllChunks st).chunks.map Prod.fst = st.chunks.map Prod.fst := by
  refine ⟨rfl, rfl, rfl, h, ?_⟩
  unfold reloadAllChunks
  rw [List.map_map]
  rfl

/-- Witness for C6 on a one-chunk state. -/
theorem reload_requeues_resident_chunks_witness :
    (reloadAllChunks (⟨[((0, 0, 0), Chunk.new (0, 0, 0))], [], [(1, 0, 0)],
        [⟨(2, 0, 0), 0⟩]⟩ : PipelineState Nat)).meshingQueue = [] ∧
    (reloadAllChunks (⟨[((0, 0, 0), Chunk.new (0, 0, 0))], [], [(1, 0, 0)],
        [⟨(2, 0, 0), 0⟩]⟩ : PipelineState Nat)).uploadQueue = [] ∧
    (reloadAllChunks (⟨[((0, 0, 0), Chunk.new (0, 0, 0))], [], [(1, 0, 0)],
        [⟨(2, 0, 0), 0⟩]⟩ : PipelineState Nat)).generationQueue =
      ([((0, 0, 0), Chunk.new (0, 0, 0))].map Prod.fst) ∧
    (reloadAllChunks (⟨[((0, 0, 0), Chunk.new (0, 0, 0))], [], [(1, 0, 0)],
        [⟨(2, 0, 0), 0⟩]⟩ : PipelineState Nat)).generationQueue.Nodup ∧
    (reloadAllChunks (⟨[((0, 0, 0), Chunk.new (0, 0, 0))], [], [(1, 0, 0)],
        [⟨(2, 0, 0), 0⟩]⟩ : PipelineState Nat)).chunks.map Prod.fst =
      ([((0, 0, 0), Chunk.new (0, 0, 0))].map Prod.fst) :=
  reload_requeues_resident_chunks
    (⟨[((0, 0, 0), Chunk.new (0, 0, 0))], [], [(1, 0, 0)],
      [⟨(2, 0, 0), 0⟩]⟩ : PipelineState Nat)
    (by simp)

/-- A cell of the 2D visibility mask (`MaskCell` in `Greedy.cpp`). -/
structure MaskCell where
  visible : Bool
  id : Nat
deriving DecidableEq

/-- A 2D mask; `m a b` is `maskAt(mask, width, a, b)` in the source. -/
abbrev Mask := Nat → Nat → MaskCell

/-- A merged rectangle emitted by `greedyScan2D` (the arguments of the
`emit` callback): origin `(x, y)` in mask coordinates, extent `w × h`,
material id. -/
structure Quad where
  x : Nat
  y : Nat
  w : Nat
  h : Nat
  id : Nat
deriving DecidableEq

/-- The width-growing loop of `greedyScan2D`: extend `qw` while the cell
to the right is visible with the same id. -/
def growWidth (m : Mask) (W x y id0 : Nat) (qw : Nat) : Nat :=
  if h : x + qw < W ∧ (m (x + qw) y).visible = true ∧
      (m (x + qw) y).id = id0 then
    growWidth m W x y id0 (qw + 1)
  else qw
termination_by W - (x + qw)
decreasing_by omega

/-- The row check of the height-growing loop: every cell of row `y` across
the current quad width is visible with the same id. -/
def rowAll (m : Mask) (x y qw id0 : Nat) : Bool :=
  (List.range qw).all fun k =>
    (m (x + k) y).visible && ((m (x + k) y).id == id0)

/-- The height-growing loop of `greedyScan2D`: extend `qh` while the whole
next row under the quad width matches. -/
def growHeight (m : Mask) (H x y id0 qw : Nat) (qh : Nat) : Nat :=
  if h : y + qh < H ∧ rowAll m x (y + qh) qw id0 = true then
    growHeight m H x y id0 qw (qh + 1)
  else qh
termination_by H - (y + qh)
decreasing_by omega

/-- Mark an emitted rectangle consumed (`visible = false` over the
rectangle). -/
def consume (m : Mask) (x y w h : Nat) : Mask := fun a b =>
  if x ≤ a ∧ a < x + w ∧ y ≤ b ∧ b < y + h then
    { m a b with visible := false }
  else m a b

def consumeQuad (m : Mask) (q : Quad) : Mask := consume m q.x q.y q.w q.h

def consumeList (m : Mask) (qs : List Quad) : Mask := qs.foldl consumeQuad m

theorem growWidth_ge (m : Mask) (W x y id0 qw : Nat) :
    qw ≤ growWidth m W x y id0 qw := by
  induction qw using growWidth.induct m W x y id0 with
  | case1 qw h ih =>
    rw [growWidth, dif_pos h]
    omega
  | case2 qw h =>
    rw [growWidth, dif_neg h]

/-- The inner `while` loop over one row of `greedyScan2D`: skip invisible
cells, grow a maximal rectangle at each visible cell, consume it and emit
it, then continue after its width. -/
def scanRow (m : Mask) (W H y x : Nat) : Mask × List Quad :=
  if hx : x < W then
    if (m x y).visible = true then
      let qw := growWidth m W x y (m x y).id 1
      let qh := growHeight m H x y (m x y).id qw 1
      let r := scanRow (consume m x y qw qh) W H y (x + qw)
      (r.1, ⟨x, y, qw, qh, (m x y).id⟩ :: r.2)
    else scanRow m W H y (x + 1)
  else (m, [])
termination_by W - x
decreasing_by
  · have h := growWidth_ge m W x y (m x y).id 1
    omega
  · omega

/-- The outer row loop of `greedyScan2D`. -/
def scanFrom (m : Mask) (W H y : Nat) : Mask × List Quad :=
  if _hy : y < H then
    let r1 := scanRow m W H y 0
    let r2 := scanFrom r1.1 W H (y + 1)
    (r2.1, r1.2 ++ r2.2)
  else (m, [])
termination_by H - y
decreasing_by omega

/-- `greedyScan2D` from `Greedy.cpp`: scan the mask in row-major order,
grow each unconsumed visible cell into a rectangle (width first, then
height), consume it, and emit one quad per rectangle, in emission order. -/
def greedyScan2D (W H : Nat) (m : Mask) : List Quad := (scanFrom m W H 0).2

/-- Membership of a mask cell in a quad's rectangle. -/
def inQuad (q : Quad) (a b : Nat) : Prop :=
  q.x ≤ a ∧ a < q.x + q.w ∧ q.y ≤ b ∧ b < q.y + q.h

instance (q : Quad) (a b : Nat) : Decidable (inQuad q a b) :=
  inferInstanceAs (Decidable (_ ∧ _ ∧ _ ∧ _))

theorem consume_id (m : Mask) (x y w h a b : Nat) :
    ((consume m x y w h) a b).id = (m a b).id := by
  unfold consume
  split <;> rfl

theorem consume_visible (m : Mask) (x y w h a b : Nat) :
    ((consume m x y w h) a b).visible =
      if x ≤ a ∧ a < x + w ∧ y ≤ b ∧ b < y + h then false
      else (m a b).visible := by
  unfold consume
  split <;> simp_all

theorem consumeQuad_id (m : Mask) (q : Quad) (a b : Nat) :
    ((consumeQuad m q) a b).id = (m a b).id :=
  consume_id m q.x q.y q.w q.h a b

theorem consumeQuad_visible (m : Mask) (q : Quad) (a b : Nat) :
    ((consumeQuad m q) a b).visible =
      if inQuad q a b then false else (m a b).visible := by
  unfold consumeQuad inQuad
  rw [consume_visible]

theorem consumeList_append (m : Mask) (qs1 qs2 : List Quad) :
    consumeList m (qs1 ++ qs2) = consumeList (consumeList m qs1) qs2 :=
  List.foldl_append _ _ _ _

theorem consumeList_id (m : Mask) (qs : List Quad) (a b : Nat) :
    ((consumeList m qs) a b).id = (m a b).id := by
  induction qs generalizing m with
  | nil => rfl
  | cons q qs ih =>
    show ((consumeList (consumeQuad m q) qs) a b).id = (m a b).id
    rw [ih, consumeQuad_id]

theorem consumeList_visible_iff (m : Mask) (qs : List Quad) (a b : Nat) :
    ((consumeList m qs) a b).visible = true ↔
      (m a b).visible = true ∧ ∀ q ∈ qs, ¬ inQuad q a b := by
  induction qs generalizing m with
  | nil => simp [consumeList]
  | cons q qs ih =>
    show ((consumeList (consumeQuad m q) qs) a b).visible = true ↔ _
    rw [ih]
    constructor
    · rintro ⟨hv, hall⟩
      rw [consumeQuad_visible] at hv
      by_cases hq : inQuad q a b
      · rw [if_pos hq] at hv
        exact absurd hv (by simp)
      · rw [if_neg hq] at hv
        refine ⟨hv, ?_⟩
        intro q2 hq2
        rcases List.mem_cons.mp hq2 with h | h
        · rw [h]; exact hq
        · exact hall q2 h
    · rintro ⟨hv, hall⟩
      have hq : ¬ inQuad q a b := hall q (List.mem_cons_self q qs)
      rw [consumeQuad_visible, if_neg hq]
      exact ⟨hv, fun q2 h2 => hall q2 (List.mem_cons_of_mem q h2)⟩

theorem consumeList_visible_mono (m : Mask) (qs : List Quad) (a b : Nat)
    (h : ((consumeList m qs) a b).visible = true) :
    (m a b).visible = true :=
  ((consumeList_visible_iff m qs a b).mp h).1

theorem rowAll_iff (m : Mask) (x y qw id0 : Nat) :
    rowAll m x y qw id0 = true ↔
      ∀ k < qw, (m (x + k) y).visible = true ∧ (m (x + k) y).id = id0 := by
  unfold rowAll
  rw [List.all_eq_true]
  constructor
  · intro h k hk
    have := h k (List.mem_range.mpr hk)
    rw [Bool.and_eq_true, beq_iff_eq] at this
    exact this
  · intro h k hk
    rw [Bool.and_eq_true, beq_iff_eq]
    exact h k (List.mem_range.mp hk)

theorem growWidth_cells (m : Mask) (W x y id0 qw : Nat) :
    ∀ k, qw ≤ k → k < growWidth m W x y id0 qw →
      (m (x + k) y).visible = true ∧ (m (x + k) y).id = id0 := by
  induction qw using growWidth.induct m W x y id0 with
  | case1 qw h ih =>
    intro k hk1 hk2
    rw [growWidth, dif_pos h] at hk2
    by_cases hkq : k = qw
    · rw [hkq]
      exact ⟨h.2.1, h.2.2⟩
    · exact ih k (by omega) hk2
  | case2 qw h =>
    intro k hk1 hk2
    rw [growWidth, dif_neg h] at hk2
    omega

theorem growWidth_stop (m : Mask) (W x y id0 qw : Nat) :
    x + growWidth m W x y id0 qw < W →
      ¬((m (x + growWidth m W x y id0 qw) y).visible = true ∧
        (m (x + growWidth m W x y id0 qw) y).id = id0) := by
  induction qw using growWidth.induct m W x y id0 with
  | case1 qw h ih =>
    rw [growWidth, dif_pos h]
    exact ih
  | case2 qw h =>
    rw [growWidth, dif_neg h]
    intro hw hc
    exact h ⟨hw, hc.1, hc.2⟩

theorem growWidth_le (m : Mask) (W x y id0 qw : Nat) (h0 : x + qw ≤ W) :
    x + growWidth m W x y id0 qw ≤ W := by
  induction qw using growWidth.induct m W x y id0 with
  | case1 qw h ih =>
    rw [growWidth, dif_pos h]
    exact ih (by omega)
  | case2 qw h =>
    rw [growWidth, dif_neg h]
    exact h0

theorem growHeight_ge (m : Mask) (H x y id0 qw qh : Nat) :
    qh ≤ growHeight m H x y id0 qw qh := by
  induction qh using growHeight.induct m H x y id0 qw with
  | case1 qh h ih =>
    rw [growHeight, dif_pos h]
    omega
  | case2 qh h =>
    rw [growHeight, dif_neg h]

theorem growHeight_rows (m : Mask) (H x y id0 qw qh : Nat) :
    ∀ j, qh ≤ j → j < growHeight m H x y id0 qw qh →
      rowAll m x (y + j) qw id0 = true := by
  induction qh using growHeight.induct m H x y id0 qw with
  | case1 qh h ih =>
    intro j hj1 hj2
    rw [growHeight, dif_pos h] at hj2
    by_cases hjq : j = qh
    · rw [hjq]
      exact h.2
    · exact ih j (by omega) hj2
  | case2 qh h =>
    intro j hj1 hj2
    rw [growHeight, dif_neg h] at hj2
    omega

theorem growHeight_stop (m : Mask) (H x y id0 qw qh : Nat) :
    y + growHeight m H x y id0 qw qh < H →
      rowAll m x (y + growHeight m H x y id0 qw qh) qw id0 = false := by
  induction qh using growHeight.induct m H x y id0 qw with
  | case1 qh h ih =>
    rw [growHeight, dif_pos h]
    exact ih
  | case2 qh h =>
    rw [growHeight, dif_neg h]
    intro hw
    rcases Bool.eq_false_or_eq_true (rowAll m x (y + qh) qw id0) with hr | hr
    · exact absurd ⟨hw, hr⟩ h
    · exact hr

theorem growHeight_le (m : Mask) (H x y id0 qw qh : Nat)
    (h0 : y + qh ≤ H) :
    y + growHeight m H x y id0 qw qh ≤ H := by
  induction qh using growHeight.induct m H x y id0 qw with
  | case1 qh h ih =>
    rw [growHeight, dif_pos h]
    exact ih (by omega)
  | case2 qh h =>
    rw [growHeight, dif_neg h]
    exact h0

theorem scanRow_mask (m : Mask) (W H y x : Nat) :
    (scanRow m W H y x).1 = consumeList m (scanRow m W H y x).2 := by
  induction m, W, H, y, x using scanRow.induct with
  | case1 m W H y x h1 h2 qw qh ih =>
    rw [scanRow, dif_pos h1, if_pos h2]
    unfold qw qh at ih
    simp only [] at ih ⊢
    rw [ih]
    rfl
  | case2 m W H y x h1 h2 ih =>
    rw [scanRow, dif_pos h1, if_neg h2]
    exact ih
  | case3 m W H y x h1 =>
    rw [scanRow, dif_neg h1]
    rfl

theorem scanRow_xbound (m : Mask) (W H y x : Nat) :
    ∀ q ∈ (scanRow m W H y x).2, x ≤ q.x ∧ q.x + q.w ≤ W := by
  induction m, W, H, y, x using scanRow.induct with
  | case1 m W H y x h1 h2 qw qh ih =>
    rw [scanRow, dif_pos h1, if_pos h2]
    unfold qw qh at ih
    simp only [] at ih ⊢
    intro q hq
    rcases List.mem_cons.mp hq with h | h
    · rw [h]
      refine ⟨le_rfl, ?_⟩
      exact growWidth_le m W x y (m x y).id 1 (by omega)
    · have h3 := ih q h
      have h4 := growWidth_ge m W x y (m x y).id 1
      exact ⟨by omega, h3.2⟩
  | case2 m W H y x h1 h2 ih =>
    rw [scanRow, dif_pos h1, if_neg h2]
    intro q hq
    have h3 := ih q hq
    exact ⟨by omega, h3.2⟩
  | case3 m W H y x h1 =>
    rw [scanRow, dif_neg h1]
    intro q hq
    exact absurd hq (List.not_mem_nil q)

theorem scanRow_shape (m : Mask) (W H y x : Nat) :
    y < H → ∀ q ∈ (scanRow m W H y x).2,
      q.y = y ∧ 1 ≤ q.w ∧ 1 ≤ q.h ∧ q.y + q.h ≤ H := by
  induction m, W, H, y, x using scanRow.induct with
  | case1 m W H y x h1 h2 qw qh ih =>
    rw [scanRow, dif_pos h1, if_pos h2]
    unfold qw qh at ih
    simp only [] at ih ⊢
    intro hy q hq
    rcases List.mem_cons.mp hq with h | h
    · rw [h]
      refine ⟨rfl, growWidth_ge m W x y (m x y).id 1, ?_, ?_⟩
      · exact growHeight_ge m H x y (m x y).id _ 1
      · exact growHeight_le m H x y (m x y).id _ 1 (by omega)
    · exact ih hy q h
  | case2 m W H y x h1 h2 ih =>
    rw [scanRow, dif_pos h1, if_neg h2]
    exact ih
  | case3 m W H y x h1 =>
    rw [scanRow, dif_neg h1]
    intro hy q hq
    exact absurd hq (List.not_mem_nil q)

theorem rowAll_eq_false (m : Mask) (x y qw id0 : Nat)
    (h : rowAll m x y qw id0 = false) :
    ∃ k < qw, ¬((m (x + k) y).visible = true ∧ (m (x + k) y).id = id0) := by
  by_contra hc
  push_neg at hc
  have ht : rowAll m x y qw id0 = true := by
    rw [rowAll_iff]
    intro k hk
    rcases hc k hk with ⟨hv, hi⟩
    exact ⟨hv, hi⟩
  rw [h] at ht
  exact absurd ht (by simp)

theorem scanRow_cells (m : Mask) (W H y x : Nat) :
    ∀ pre q post, (scanRow m W H y x).2 = pre ++ q :: post →
      ∀ a b, inQuad q a b →
        ((consumeList m pre) a b).visible = true ∧ (m a b).id = q.id := by
  induction m, W, H, y, x using scanRow.induct with
  | case1 m W H y x h1 h2 qw qh ih =>
    rw [scanRow, dif_pos h1, if_pos h2]
    unfold qw qh at ih
    simp only [] at ih ⊢
    intro pre q post hdec a b hin
    cases pre with
    | nil =>
      rw [List.nil_append] at hdec
      injection hdec with hq hpost
      rw [← hq] at hin
      obtain ⟨ha1, ha2, hb1, hb2⟩ := hin
      simp only [] at ha1 ha2 hb1 hb2
      rw [← hq]
      simp only []
      have hcell : (m a b).visible = true ∧ (m a b).id = (m x y).id := by
        by_cases hb : b = y
        · subst hb
          by_cases ha : a = x
          · subst ha
            exact ⟨h2, rfl⟩
          · have hk := growWidth_cells m W x b (m x b).id 1 (a - x)
              (by omega) (by omega)
            have hxa : x + (a - x) = a := by omega
            rw [hxa] at hk
            exact hk
        · have hrow := growHeight_rows m H x y (m x y).id
            (growWidth m W x y (m x y).id 1) 1 (b - y) (by omega) (by omega)
          rw [rowAll_iff] at hrow
          have hk := hrow (a - x) (by omega)
          have hxa : x + (a - x) = a := by omega
          have hyb : y + (b - y) = b := by omega
          rw [hxa, hyb] at hk
          exact hk
      exact ⟨hcell.1, hcell.2⟩
    | cons q0 pre2 =>
      rw [List.cons_append] at hdec
      injection hdec with hq0 hrest
      have hrec := ih pre2 q post hrest a b hin
      constructor
      · show ((consumeList (consumeQuad m q0) pre2) a b).visible = true
        rw [← hq0]
        exact hrec.1
      · have h2id := hrec.2
        rw [consume_id] at h2id
        exact h2id
  | case2 m W H y x h1 h2 ih =>
    rw [scanRow, dif_pos h1, if_neg h2]
    exact ih
  | case3 m W H y x h1 =>
    rw [scanRow, dif_neg h1]
    intro pre q post hdec
    exact absurd hdec (by simp)

theorem scanRow_stop_w (m : Mask) (W H y x : Nat) :
    ∀ pre q post, (scanRow m W H y x).2 = pre ++ q :: post →
      q.x + q.w < W →
        ¬(((consumeList m pre) (q.x + q.w) q.y).visible = true ∧
          (m (q.x + q.w) q.y).id = q.id) := by
  induction m, W, H, y, x using scanRow.induct with
  | case1 m W H y x h1 h2 qw qh ih =>
    rw [scanRow, dif_pos h1, if_pos h2]
    unfold qw qh at ih
    simp only [] at ih ⊢
    intro pre q post hdec hw
    cases pre with
    | nil =>
      rw [List.nil_append] at hdec
      injection hdec with hq hpost
      rw [← hq] at hw ⊢
      simp only [] at hw ⊢
      exact growWidth_stop m W x y (m x y).id 1 hw
    | cons q0 pre2 =>
      rw [List.cons_append] at hdec
      injection hdec with hq0 hrest
      have hrec := ih pre2 q post hrest hw
      intro hc
      apply hrec
      constructor
      · have := hc.1
        rw [← hq0] at this
        exact this
      · rw [consume_id]
        exact hc.2
  | case2 m W H y x h1 h2 ih =>
    rw [scanRow, dif_pos h1, if_neg h2]
    exact ih
  | case3 m W H y x h1 =>
    rw [scanRow, dif_neg h1]
    intro pre q post hdec
    exact absurd hdec (by simp)

theorem scanRow_stop_h (m : Mask) (W H y x : Nat) :
    ∀ pre q post, (scanRow m W H y x).2 = pre ++ q :: post →
      q.y + q.h < H →
        ∃ k < q.w,
          ¬(((consumeList m pre) (q.x + k) (q.y + q.h)).visible = true ∧
            (m (q.x + k) (q.y + q.h)).id = q.id) := by
  induction m, W, H, y, x using scanRow.induct with
  | case1 m W H y x h1 h2 qw qh ih =>
    rw [scanRow, dif_pos h1, if_pos h2]
    unfold qw qh at ih
    simp only [] at ih ⊢
    intro pre q post hdec hh
    cases pre with
    | nil =>
      rw [List.nil_append] at hdec
      injection hdec with hq hpost
      rw [← hq] at hh ⊢
      simp only [] at hh ⊢
      have hstop := growHeight_stop m H x y (m x y).id
        (growWidth m W x y (m x y).id 1) 1 hh
      exact rowAll_eq_false m x _ _ _ hstop
    | cons q0 pre2 =>
      rw [List.cons_append] at hdec
      injection hdec with hq0 hrest
      rcases ih pre2 q post hrest hh with ⟨k, hk, hnk⟩
      refine ⟨k, hk, ?_⟩
      intro hc
      apply hnk
      constructor
      · have := hc.1
        rw [← hq0] at this
        exact this
      · rw [consume_id]
        exact hc.2
  | case2 m W H y x h1 h2 ih =>
    rw [scanRow, dif_pos h1, if_neg h2]
    exact ih
  | case3 m W H y x h1 =>
    rw [scanRow, dif_neg h1]
    intro pre q post hdec
    exact absurd hdec (by simp)

theorem scanRow_order (m : Mask) (W H y x : Nat) :
    ∀ pre q post, (scanRow m W H y x).2 = pre ++ q :: post →
      ∀ q2 ∈ post, q.x + q.w ≤ q2.x := by
  induction m, W, H, y, x using scanRow.induct with
  | case1 m W H y x h1 h2 qw qh ih =>
    rw [scanRow, dif_pos h1, if_pos h2]
    unfold qw qh at ih
    simp only [] at ih ⊢
    intro pre q post hdec q2 hq2
    cases pre with
    | nil =>
      rw [List.nil_append] at hdec
      injection hdec with hq hpost
      rw [← hq]
      simp only []
      have hb := scanRow_xbound _ W H y
        (x + growWidth m W x y (m x y).id 1) q2 (by rw [hpost]; exact hq2)
      exact hb.1
    | cons q0 pre2 =>
      rw [List.cons_append] at hdec
      injection hdec with hq0 hrest
      exact ih pre2 q post hrest q2 hq2
  | case2 m W H y x h1 h2 ih =>
    rw [scanRow, dif_pos h1, if_neg h2]
    exact ih
  | case3 m W H y x h1 =>
    rw [scanRow, dif_neg h1]
    intro pre q post hdec
    exact absurd hdec (by simp)

theorem scanRow_row_done (m : Mask) (W H y x : Nat) :
    ∀ a, x ≤ a → a < W → ((scanRow m W H y x).1 a y).visible = false := by
  induction m, W, H, y, x using scanRow.induct with
  | case1 m W H y x h1 h2 qw qh ih =>
    rw [scanRow, dif_pos h1, if_pos h2]
    unfold qw qh at ih
    simp only [] at ih ⊢
    intro a ha hw
    by_cases hcase : x + growWidth m W x y (m x y).id 1 ≤ a
    · exact ih a hcase hw
    · rcases Bool.eq_false_or_eq_true
        (((scanRow (consume m x y (growWidth m W x y (m x y).id 1)
          (growHeight m H x y (m x y).id (growWidth m W x y (m x y).id 1) 1))
          W H y (x + growWidth m W x y (m x y).id 1)).1 a y).visible)
        with hv | hv
      · rw [scanRow_mask] at hv
        have hvm := consumeList_visible_mono _ _ a y hv
        rw [consume_visible] at hvm
        rw [if_pos ⟨ha, by omega, le_rfl, by
          have := growHeight_ge m H x y (m x y).id
            (growWidth m W x y (m x y).id 1) 1
          omega⟩] at hvm
        exact absurd hvm (by simp)
      · exact hv
  | case2 m W H y x h1 h2 ih =>
    rw [scanRow, dif_pos h1, if_neg h2]
    intro a ha hw
    by_cases hcase : x + 1 ≤ a
    · exact ih a hcase hw
    · have hax : a = x := by omega
      rcases Bool.eq_false_or_eq_true
        (((scanRow m W H y (x + 1)).1 a y).visible) with hv | hv
      · rw [scanRow_mask] at hv
        have hvm := consumeList_visible_mono _ _ a y hv
        rw [hax] at hvm
        exact absurd hvm h2
      · exact hv
  | case3 m W H y x h1 =>
    intro a ha hw
    omega

theorem append_split_at_elem {α : Type} (l1 l2 pre post : List α) (q : α)
    (h : l1 ++ l2 = pre ++ q :: post) :
    (∃ mid, l1 = pre ++ q :: mid ∧ post = mid ++ l2) ∨
    (∃ pre2, pre = l1 ++ pre2 ∧ l2 = pre2 ++ q :: post) := by
  rcases List.append_eq_append_iff.mp h with ⟨a2, h1, h2⟩ | ⟨c2, h1, h2⟩
  · right
    exact ⟨a2, h1, h2⟩
  · cases c2 with
    | nil =>
      right
      refine ⟨[], by simpa using h1.symm, ?_⟩
      rw [List.nil_append] at h2 ⊢
      exact h2.symm
    | cons q2 mid =>
      left
      rw [List.cons_append] at h2
      injection h2 with ha hb
      refine ⟨mid, ?_, hb⟩
      rw [h1, ha]

theorem scanFrom_mask (m : Mask) (W H y : Nat) :
    (scanFrom m W H y).1 = consumeList m (scanFrom m W H y).2 := by
  induction m, W, H, y using scanFrom.induct with
  | case1 m W H y hy r1 ih =>
    rw [scanFrom, dif_pos hy]
    unfold r1 at ih
    simp only [] at ih ⊢
    rw [ih, consumeList_append, scanRow_mask]
  | case2 m W H y hy =>
    rw [scanFrom, dif_neg hy]
    rfl

theorem scanFrom_shape (m : Mask) (W H y : Nat) :
    ∀ q ∈ (scanFrom m W H y).2,
      y ≤ q.y ∧ q.y < H ∧ 1 ≤ q.w ∧ 1 ≤ q.h ∧ q.y + q.h ≤ H ∧
        q.x + q.w ≤ W := by
  induction m, W, H, y using scanFrom.induct with
  | case1 m W H y hy r1 ih =>
    rw [scanFrom, dif_pos hy]
    unfold r1 at ih
    simp only [] at ih ⊢
    intro q hq
    rcases List.mem_append.mp hq with h | h
    · have hs := scanRow_shape m W H y 0 hy q h
      have hb := scanRow_xbound m W H y 0 q h
      exact ⟨by omega, by omega, hs.2.1, hs.2.2.1, hs.2.2.2, hb.2⟩
    · have hs := ih q h
      exact ⟨by omega, hs.2.1, hs.2.2.1, hs.2.2.2.1, hs.2.2.2.2.1,
        hs.2.2.2.2.2⟩
  | case2 m W H y hy =>
    rw [scanFrom, dif_neg hy]
    intro q hq
    exact absurd hq (List.not_mem_nil q)

theorem scanFrom_cells (m : Mask) (W H y : Nat) :
    ∀ pre q post, (scanFrom m W H y).2 = pre ++ q :: post →
      ∀ a b, inQuad q a b →
        ((consumeList m pre) a b).visible = true ∧ (m a b).id = q.id := by
  induction m, W, H, y using scanFrom.induct with
  | case1 m W H y hy r1 ih =>
    rw [scanFrom, dif_pos hy]
    unfold r1 at ih
    simp only [] at ih ⊢
    intro pre q post hdec a b hin
    rcases append_split_at_elem _ _ _ _ _ hdec with
      ⟨mid, h1, h2⟩ | ⟨pre2, h1, h2⟩
    · exact scanRow_cells m W H y 0 pre q mid h1 a b hin
    · have hrec := ih pre2 q post h2 a b hin
      rw [scanRow_mask] at hrec
      constructor
      · rw [h1, consumeList_append]
        exact hrec.1
      · rw [consumeList_id] at hrec
        exact hrec.2
  | case2 m W H y hy =>
    rw [scanFrom, dif_neg hy]
    intro pre q post hdec
    exact absurd hdec (by simp)

theorem scanFrom_stop_w (m : Mask) (W H y : Nat) :
    ∀ pre q post, (scanFrom m W H y).2 = pre ++ q :: post →
      q.x + q.w < W →
        ¬(((consumeList m pre) (q.x + q.w) q.y).visible = true ∧
          (m (q.x + q.w) q.y).id = q.id) := by
  induction m, W, H, y using scanFrom.induct with
  | case1 m W H y hy r1 ih =>
    rw [scanFrom, dif_pos hy]
    unfold r1 at ih
    simp only [] at ih ⊢
    intro pre q post hdec hw
    rcases append_split_at_elem _ _ _ _ _ hdec with
      ⟨mid, h1, h2⟩ | ⟨pre2, h1, h2⟩
    · exact scanRow_stop_w m W H y 0 pre q mid h1 hw
    · have hrec := ih pre2 q post h2 hw
      rw [scanRow_mask] at hrec
      intro hc
      apply hrec
      constructor
      · rw [h1, consumeList_append] at hc
        exact hc.1
      · rw [consumeList_id]
        exact hc.2
  | case2 m W H y hy =>
    rw [scanFrom, dif_neg hy]
    intro pre q post hdec
    exact absurd hdec (by simp)

theorem scanFrom_stop_h (m : Mask) (W H y : Nat) :
    ∀ pre q post, (scanFrom m W H y).2 = pre ++ q :: post →
      q.y + q.h < H →
        ∃ k < q.w,
          ¬(((consumeList m pre) (q.x + k) (q.y + q.h)).visible = true ∧
            (m (q.x + k) (q.y + q.h)).id = q.id) := by
  induction m, W, H, y using scanFrom.induct with
  | case1 m W H y hy r1 ih =>
    rw [scanFrom, dif_pos hy]
    unfold r1 at ih
    simp only [] at ih ⊢
    intro pre q post hdec hh
    rcases append_split_at_elem _ _ _ _ _ hdec with
      ⟨mid, h1, h2⟩ | ⟨pre2, h1, h2⟩
    · exact scanRow_stop_h m W H y 0 pre q mid h1 hh
    · rcases ih pre2 q post h2 hh with ⟨k, hk, hnk⟩
      rw [scanRow_mask] at hnk
      refine ⟨k, hk, ?_⟩
      intro hc
      apply hnk
      constructor
      · rw [h1, consumeList_append] at hc
        exact hc.1
      · rw [consumeList_id]
        exact hc.2
  | case2 m W H y hy =>
    rw [scanFrom, dif_neg hy]
    intro pre q post hdec
    exact absurd hdec (by simp)

theorem scanFrom_order (m : Mask) (W H y : Nat) :
    ∀ pre q post, (scanFrom m W H y).2 = pre ++ q :: post →
      ∀ q2 ∈ post, q.y < q2.y ∨ (q.y = q2.y ∧ q.x + q.w ≤ q2.x) := by
  induction m, W, H, y using scanFrom.induct with
  | case1 m W H y hy r1 ih =>
    rw [scanFrom, dif_pos hy]
    unfold r1 at ih
    simp only [] at ih ⊢
    intro pre q post hdec q2 hq2
    rcases append_split_at_elem _ _ _ _ _ hdec with
      ⟨mid, h1, h2⟩ | ⟨pre2, h1, h2⟩
    · have hmemq : q ∈ (scanRow m W H y 0).2 := by
        rw [h1]
        exact List.mem_append.mpr (Or.inr (List.mem_cons_self q mid))
      have hqy : q.y = y := (scanRow_shape m W H y 0 hy q hmemq).1
      rw [h2] at hq2
      rcases List.mem_append.mp hq2 with hmem | hmem
      · right
        have hmemq2 : q2 ∈ (scanRow m W H y 0).2 := by
          rw [h1]
          exact List.mem_append.mpr
            (Or.inr (List.mem_cons_of_mem q hmem))
        have hq2y : q2.y = y := (scanRow_shape m W H y 0 hy q2 hmemq2).1
        exact ⟨by omega, scanRow_order m W H y 0 pre q mid h1 q2 hmem⟩
      · left
        have hq2y := (scanFrom_shape _ W H (y + 1) q2 hmem).1
        omega
    · exact ih pre2 q post h2 q2 hq2
  | case2 m W H y hy =>
    rw [scanFrom, dif_neg hy]
    intro pre q post hdec
    exact absurd hdec (by simp)

theorem scanFrom_invisible (m : Mask) (W H y : Nat) :
    ∀ a b, a < W → y ≤ b → b < H →
      ((scanFrom m W H y).1 a b).visible = false := by
  induction m, W, H, y using scanFrom.induct with
  | case1 m W H y hy r1 ih =>
    rw [scanFrom, dif_pos hy]
    unfold r1 at ih
    simp only [] at ih ⊢
    intro a b ha hb1 hb2
    by_cases hby : y + 1 ≤ b
    · exact ih a b ha hby hb2
    · have hbe : b = y := by omega
      subst hbe
      have hrow := scanRow_row_done m W H b 0 a (by omega) ha
      rcases Bool.eq_false_or_eq_true
        (((scanFrom (scanRow m W H b 0).1 W H (b + 1)).1 a b).visible)
        with hv | hv
      · rw [scanFrom_mask] at hv
        have hvm := consumeList_visible_mono _ _ a b hv
        rw [hrow] at hvm
        exact absurd hvm (by simp)
      · exact hv
  | case2 m W H y hy =>
    intro a b ha hb1 hb2
    omega

theorem greedyScan2D_cells (W H : Nat) (m : Mask) :
    ∀ q ∈ greedyScan2D W H m, ∀ a b, inQuad q a b →
      (m a b).visible = true ∧ (m a b).id = q.id := by
  intro q hq a b hin
  rcases List.append_of_mem hq with ⟨pre, post, hdec⟩
  have h := scanFrom_cells m W H 0 pre q post hdec a b hin
  exact ⟨consumeList_visible_mono m pre a b h.1, h.2⟩

theorem greedyScan2D_shape (W H : Nat) (m : Mask) :
    ∀ q ∈ greedyScan2D W H m,
      q.y < H ∧ 1 ≤ q.w ∧ 1 ≤ q.h ∧ q.y + q.h ≤ H ∧ q.x + q.w ≤ W := by
  intro q hq
  have h := scanFrom_shape m W H 0 q hq
  exact ⟨h.2.1, h.2.2.1, h.2.2.2.1, h.2.2.2.2.1, h.2.2.2.2.2⟩

theorem greedyScan2D_coverage (W H : Nat) (m : Mask) :
    ∀ a b, a < W → b < H → (m a b).visible = true →
      ∃ q ∈ greedyScan2D W H m, inQuad q a b := by
  intro a b ha hb hv
  have hfin := scanFrom_invisible m W H 0 a b ha (by omega) hb
  rw [scanFrom_mask] at hfin
  by_contra hc
  push_neg at hc
  have : ((consumeList m (scanFrom m W H 0).2) a b).visible = true :=
    (consumeList_visible_iff m _ a b).mpr ⟨hv, hc⟩
  rw [hfin] at this
  exact absurd this (by simp)

/-- The grid of mask cells of a `W × H` layer. -/
def gridCells (W H : Nat) : Finset (Nat × Nat) :=
  Finset.range W ×ˢ Finset.range H

/-- The number of visible cells of a mask layer: the number of faces the
naive per-face emission would produce for that layer. -/
def visCount (W H : Nat) (m : Mask) : Nat :=
  ((gridCells W H).filter (fun p => (m p.1 p.2).visible = true)).card

/-- The set of mask cells covered by a quad. -/
def quadCells (q : Quad) : Finset (Nat × Nat) :=
  Finset.Ico q.x (q.x + q.w) ×ˢ Finset.Ico q.y (q.y + q.h)

theorem mem_quadCells (q : Quad) (p : Nat × Nat) :
    p ∈ quadCells q ↔ inQuad q p.1 p.2 := by
  unfold quadCells inQuad
  rw [Finset.mem_product, Finset.mem_Ico, Finset.mem_Ico]
  constructor
  · rintro ⟨⟨h1, h2⟩, h3, h4⟩
    exact ⟨h1, h2, h3, h4⟩
  · rintro ⟨h1, h2, h3, h4⟩
    exact ⟨⟨h1, h2⟩, h3, h4⟩

theorem quadCells_card (q : Quad) : (quadCells q).card = q.w * q.h := by
  unfold quadCells
  rw [Finset.card_product, Nat.card_Ico, Nat.card_Ico,
    Nat.add_sub_cancel_left, Nat.add_sub_cancel_left]

/-- The union of the cells of a list of quads. -/
def quadCellsUnion (qs : List Quad) : Finset (Nat × Nat) :=
  qs.foldr (fun q s => quadCells q ∪ s) ∅

theorem mem_quadCellsUnion (qs : List Quad) (p : Nat × Nat) :
    p ∈ quadCellsUnion qs ↔ ∃ q ∈ qs, inQuad q p.1 p.2 := by
  induction qs with
  | nil => simp [quadCellsUnion]
  | cons q qs ih =>
    show p ∈ quadCells q ∪ quadCellsUnion qs ↔ _
    rw [Finset.mem_union, ih, mem_quadCells]
    constructor
    · rintro (h | ⟨q2, hq2, hin⟩)
      · exact ⟨q, List.mem_cons_self q qs, h⟩
      · exact ⟨q2, List.mem_cons_of_mem q hq2, hin⟩
    · rintro ⟨q2, hq2, hin⟩
      rcases List.mem_cons.mp hq2 with h | h
      · left
        rw [h] at hin
        exact hin
      · right
        exact ⟨q2, h, hin⟩

theorem quadCellsUnion_card (qs : List Quad)
    (hdisj : ∀ pre q post, qs = pre ++ q :: post →
      ∀ q2 ∈ post, Disjoint (quadCells q) (quadCells q2)) :
    (quadCellsUnion qs).card = (qs.map (fun q => q.w * q.h)).sum := by
  induction qs with
  | nil => rfl
  | cons q qs ih =>
    show (quadCells q ∪ quadCellsUnion qs).card = _
    have hdq : Disjoint (quadCells q) (quadCellsUnion qs) := by
      rw [Finset.disjoint_left]
      intro p hp hpu
      rcases (mem_quadCellsUnion qs p).mp hpu with ⟨q2, hq2, hin2⟩
      have := hdisj [] q qs rfl q2 hq2
      rw [Finset.disjoint_left] at this
      exact this hp ((mem_quadCells q2 p).mpr hin2)
    rw [Finset.card_union_of_disjoint hdq, List.map_cons, List.sum_cons,
      ih (fun pre q2 post hdec q3 hq3 =>
        hdisj (q :: pre) q2 post (by rw [hdec]; rfl) q3 hq3),
      quadCells_card]

theorem greedyScan2D_disjoint (W H : Nat) (m : Mask) :
    ∀ pre q post, greedyScan2D W H m = pre ++ q :: post →
      ∀ q2 ∈ post, Disjoint (quadCells q) (quadCells q2) := by
  intro pre q post hdec q2 hq2
  rcases List.append_of_mem hq2 with ⟨mid, post2, hdec2⟩
  have hdec3 : greedyScan2D W H m = (pre ++ q :: mid) ++ q2 :: post2 := by
    rw [hdec, hdec2]
    simp
  rw [Finset.disjoint_left]
  intro p hp hp2
  have hcells := scanFrom_cells m W H 0 (pre ++ q :: mid) q2 post2 hdec3
    p.1 p.2 ((mem_quadCells q2 p).mp hp2)
  have hnot := ((consumeList_visible_iff m _ p.1 p.2).mp hcells.1).2 q
    (List.mem_append.mpr (Or.inr (List.mem_cons_self q mid)))
  exact hnot ((mem_quadCells q p).mp hp)

theorem visible_eq_quadCellsUnion (W H : Nat) (m : Mask) :
    (gridCells W H).filter (fun p => (m p.1 p.2).visible = true) =
      quadCellsUnion (greedyScan2D W H m) := by
  apply Finset.ext
  intro p
  rw [Finset.mem_filter, mem_quadCellsUnion]
  constructor
  · rintro ⟨hgrid, hvis⟩
    rw [gridCells, Finset.mem_product, Finset.mem_range, Finset.mem_range]
      at hgrid
    exact greedyScan2D_coverage W H m p.1 p.2 hgrid.1 hgrid.2 hvis
  · rintro ⟨q, hq, hin⟩
    have hc := greedyScan2D_cells W H m q hq p.1 p.2 hin
    have hs := greedyScan2D_shape W H m q hq
    refine ⟨?_, hc.1⟩
    rw [gridCells, Finset.mem_product, Finset.mem_range, Finset.mem_range]
    unfold inQuad at hin
    exact ⟨by omega, by omega⟩

/-- Geometric equivalence at the mask level: the summed area of the quads
emitted by `greedyScan2D` equals the number of visible cells of the mask
(the naive per-face count), with no cell double-covered, none missed, and
none added. -/
theorem greedyScan2D_area (W H : Nat) (m : Mask) :
    ((greedyScan2D W H m).map (fun q => q.w * q.h)).sum =
      visCount W H m := by
  rw [visCount, visible_eq_quadCellsUnion,
    quadCellsUnion_card _ (greedyScan2D_disjoint W H m)]

theorem length_le_sum_of_one_le (l : List Nat) (h : ∀ v ∈ l, 1 ≤ v) :
    l.length ≤ l.sum := by
  induction l with
  | nil => simp
  | cons v l ih =>
    rw [List.length_cons, List.sum_cons]
    have h1 := h v (List.mem_cons_self v l)
    have h2 := ih (fun w hw => h w (List.mem_cons_of_mem v hw))
    omega

theorem all_eq_one_of_sum_eq_length (l : List Nat) (h : ∀ v ∈ l, 1 ≤ v)
    (he : l.sum = l.length) : ∀ v ∈ l, v = 1 := by
  induction l with
  | nil => simp
  | cons v l ih =>
    rw [List.length_cons, List.sum_cons] at he
    have h1 := h v (List.mem_cons_self v l)
    have h2 := length_le_sum_of_one_le l
      (fun w hw => h w (List.mem_cons_of_mem v hw))
    intro w hw
    rcases List.mem_cons.mp hw with hww | hww
    · omega
    · have hrec := ih (fun u hu => h u (List.mem_cons_of_mem v hu))
        (by omega)
      exact hrec w hww

theorem greedyScan2D_count_le (W H : Nat) (m : Mask) :
    (greedyScan2D W H m).length ≤ visCount W H m := by
  rw [← greedyScan2D_area W H m]
  have := length_le_sum_of_one_le ((greedyScan2D W H m).map
    (fun q => q.w * q.h)) (by
      intro v hv
      rcases List.mem_map.mp hv with ⟨q, hq, hvq⟩
      have hs := greedyScan2D_shape W H m q hq
      rw [← hvq]
      exact Nat.one_le_iff_ne_zero.mpr (by
        intro hz
        rcases Nat.mul_eq_zero.mp hz with h0 | h0 <;> omega))
  rw [List.length_map] at this
  exact this

theorem greedyScan2D_all_unit (W H : Nat) (m : Mask)
    (heq : (greedyScan2D W H m).length = visCount W H m) :
    ∀ q ∈ greedyScan2D W H m, q.w = 1 ∧ q.h = 1 := by
  intro q hq
  have hone : ∀ v ∈ (greedyScan2D W H m).map (fun q => q.w * q.h), 1 ≤ v := by
    intro v hv
    rcases List.mem_map.mp hv with ⟨q2, hq2, hvq⟩
    have hs := greedyScan2D_shape W H m q2 hq2
    rw [← hvq]
    exact Nat.one_le_iff_ne_zero.mpr (by
      intro hz
      rcases Nat.mul_eq_zero.mp hz with h0 | h0 <;> omega)
  have hsum : ((greedyScan2D W H m).map (fun q => q.w * q.h)).sum =
      ((greedyScan2D W H m).map (fun q => q.w * q.h)).length := by
    rw [List.length_map, greedyScan2D_area W H m, heq]
  have hall := all_eq_one_of_sum_eq_length _ hone hsum (q.w * q.h)
    (List.mem_map.mpr ⟨q, hq, rfl⟩)
  have hs := greedyScan2D_shape W H m q hq
  constructor
  · by_contra hw
    have h2 : 2 ≤ q.w := by omega
    have h3 : 2 * 1 ≤ q.w * q.h := Nat.mul_le_mul h2 hs.2.2.1
    omega
  · by_contra hh
    have h2 : 2 ≤ q.h := by omega
    have h3 : 1 * 2 ≤ q.w * q.h := Nat.mul_le_mul hs.2.1 h2
    omega

theorem greedyScan2D_adjacent_h (W H : Nat) (m : Mask)
    (heq : (greedyScan2D W H m).length = visCount W H m) :
    ∀ a b, a + 1 < W → b < H →
      (m a b).visible = true → (m (a + 1) b).visible = true →
      (m a b).id ≠ (m (a + 1) b).id := by
  intro a b haw hb hv1 hv2 hid
  obtain ⟨q, hq, hin⟩ := greedyScan2D_coverage W H m a b (by omega) hb hv1
  have hunit := greedyScan2D_all_unit W H m heq q hq
  obtain ⟨hx1, hx2, hy1, hy2⟩ := hin
  have hqx : q.x = a := by omega
  have hqy : q.y = b := by omega
  rcases List.append_of_mem hq with ⟨pre, post, hdec⟩
  have hidq : (m a b).id = q.id :=
    (greedyScan2D_cells W H m q hq a b ⟨hx1, hx2, hy1, hy2⟩).2
  have hstop := scanFrom_stop_w m W H 0 pre q post hdec
    (by rw [hqx, hunit.1]; omega)
  rw [hqx, hqy, hunit.1] at hstop
  have hnotvis : ¬ (((consumeList m pre) (a + 1) b).visible = true) := by
    intro hvp
    exact hstop ⟨hvp, by rw [← hid]; exact hidq⟩
  rw [consumeList_visible_iff] at hnotvis
  push_neg at hnotvis
  obtain ⟨q2, hq2, hin2⟩ := hnotvis hv2
  have hq2full : q2 ∈ greedyScan2D W H m := by
    rw [hdec]
    exact List.mem_append.mpr (Or.inl hq2)
  have hunit2 := greedyScan2D_all_unit W H m heq q2 hq2full
  obtain ⟨hu1, hu2, hu3, hu4⟩ := hin2
  have hq2x : q2.x = a + 1 := by omega
  have hq2y : q2.y = b := by omega
  rcases List.append_of_mem hq2 with ⟨pre2, mid, hdec2⟩
  have hdec3 : greedyScan2D W H m = pre2 ++ q2 :: (mid ++ q :: post) := by
    rw [hdec, hdec2]
    simp
  have hord := scanFrom_order m W H 0 pre2 q2 (mid ++ q :: post) hdec3 q
    (List.mem_append.mpr (Or.inr (List.mem_cons_self q post)))
  rcases hord with h | h
  · omega
  · rw [hq2x, hq2y, hqx, hqy, hunit2.1] at h
    omega

theorem greedyScan2D_adjacent_v (W H : Nat) (m : Mask)
    (heq : (greedyScan2D W H m).length = visCount W H m) :
    ∀ a b, a < W → b + 1 < H →
      (m a b).visible = true → (m a (b + 1)).visible = true →
      (m a b).id ≠ (m a (b + 1)).id := by
  intro a b haw hb hv1 hv2 hid
  obtain ⟨q, hq, hin⟩ := greedyScan2D_coverage W H m a b haw (by omega) hv1
  have hunit := greedyScan2D_all_unit W H m heq q hq
  obtain ⟨hx1, hx2, hy1, hy2⟩ := hin
  have hqx : q.x = a := by omega
  have hqy : q.y = b := by omega
  rcases List.append_of_mem hq with ⟨pre, post, hdec⟩
  have hidq : (m a b).id = q.id :=
    (greedyScan2D_cells W H m q hq a b ⟨hx1, hx2, hy1, hy2⟩).2
  have hstop := scanFrom_stop_h m W H 0 pre q post hdec
    (by rw [hqy, hunit.2]; omega)
  obtain ⟨k, hk, hnk⟩ := hstop
  have hk0 : k = 0 := by
    rw [hunit.1] at hk
    omega
  rw [hk0, hqx, hqy, hunit.2, Nat.add_zero] at hnk
  have hnotvis : ¬ (((consumeList m pre) a (b + 1)).visible = true) := by
    intro hvp
    exact hnk ⟨hvp, by rw [← hid]; exact hidq⟩
  rw [consumeList_visible_iff] at hnotvis
  push_neg at hnotvis
  obtain ⟨q2, hq2, hin2⟩ := hnotvis hv2
  have hq2full : q2 ∈ greedyScan2D W H m := by
    rw [hdec]
    exact List.mem_append.mpr (Or.inl hq2)
  have hunit2 := greedyScan2D_all_unit W H m heq q2 hq2full
  obtain ⟨hu1, hu2, hu3, hu4⟩ := hin2
  have hq2y : q2.y = b + 1 := by omega
  rcases List.append_of_mem hq2 with ⟨pre2, mid, hdec2⟩
  have hdec3 : greedyScan2D W H m = pre2 ++ q2 :: (mid ++ q :: post) := by
    rw [hdec, hdec2]
    simp
  have hord := scanFrom_order m W H 0 pre2 q2 (mid ++ q :: post) hdec3 q
    (List.mem_append.mpr (Or.inr (List.mem_cons_self q post)))
  rcases hord with h | h
  · omega
  · omega

/-- The six face orientations (`BlockFace` in `BlockDatabase.h`). -/
inductive BlockFace
  | Top
  | Bottom
  | North
  | South
  | East
  | West
deriving DecidableEq

/-- `getBlockWithNeighbors` from `Greedy.cpp`: cells inside the chunk read
the chunk's own storage, everything else goes through the world lookup
(`MinecraftApp::getBlock`) at the cell's world position
(`Chunk::getBlockWorldPosition`). -/
def getBlockWithNeighbors (c : ChunkData) (world : Int → Int → Int → Nat)
    (x y z : Int) : Nat :=
  if 0 ≤ x ∧ x < (CHUNK_SIZE : Int) ∧ 0 ≤ y ∧ y < (CHUNK_HEIGHT : Int) ∧
      0 ≤ z ∧ z < (CHUNK_SIZE : Int) then
    Chunk.getBlock c x y z
  else
    world (c.chunkPos.1 * (CHUNK_SIZE : Int) + x)
      (c.chunkPos.2.1 * (CHUNK_HEIGHT : Int) + y)
      (c.chunkPos.2.2 * (CHUNK_SIZE : Int) + z)

/-- The 3D chunk-local cell denoted by mask cell `(a, b)` of plane `p`,
per the mask-construction loops of `buildGreedyMesh`: top/bottom planes
are Y layers with mask coordinates `(x, z)`; north/south planes are Z
layers with mask coordinates `(x, y)`; east/west planes are X layers with
mask coordinates `(z, y)`. -/
def cellPos : BlockFace → Nat → Nat → Nat → Int × Int × Int
  | .Top, p, a, b => ((a : Int), (p : Int), (b : Int))
  | .Bottom, p, a, b => ((a : Int), (p : Int), (b : Int))
  | .North, p, a, b => ((a : Int), (b : Int), (p : Int))
  | .South, p, a, b => ((a : Int), (b : Int), (p : Int))
  | .East, p, a, b => ((p : Int), (b : Int), (a : Int))
  | .West, p, a, b => ((p : Int), (b : Int), (a : Int))

/-- The immediate neighbor of a cell in the face direction, per the
neighbor probes of the mask-construction loops (`y + 1`, `y - 1`,
`z - 1`, `z + 1`, `x + 1`, `x - 1`). -/
def nbrPos : BlockFace → Nat → Nat → Nat → Int × Int × Int
  | .Top, p, a, b => ((a : Int), (p : Int) + 1, (b : Int))
  | .Bottom, p, a, b => ((a : Int), (p : Int) - 1, (b : Int))
  | .North, p, a, b => ((a : Int), (b : Int), (p : Int) - 1)
  | .South, p, a, b => ((a : Int), (b : Int), (p : Int) + 1)
  | .East, p, a, b => ((p : Int) + 1, (b : Int), (a : Int))
  | .West, p, a, b => ((p : Int) - 1, (b : Int), (a : Int))

/-- The visibility mask that `buildGreedyMesh` fills for one face and
plane: a cell is visible iff its block is opaque (`db.isOpaque(curId)`)
and the neighbor in the face direction is not
(`!db.isOpaque(neighborId)`); the cell carries the block id. -/
def faceMask (c : ChunkData) (world : Int → Int → Int → Nat)
    (op : Nat → Bool) (f : BlockFace) (p : Nat) : Mask :=
  fun a b =>
    let pos := cellPos f p a b
    let npos := nbrPos f p a b
    let cur := getBlockWithNeighbors c world pos.1 pos.2.1 pos.2.2
    let nb := getBlockWithNeighbors c world npos.1 npos.2.1 npos.2.2
    { visible := op cur && !(op nb), id := cur }

/-- Mask width for a face: always `CHUNK_SIZE` in the source (X for the
Y- and Z-facing masks, Z for the X-facing masks). -/
def maskWidth : BlockFace → Nat := fun _ => CHUNK_SIZE

/-- Mask height for a face: Z (`CHUNK_SIZE`) for top/bottom, Y
(`CHUNK_HEIGHT`) for the side faces. -/
def maskHeight : BlockFace → Nat
  | .Top => CHUNK_SIZE
  | .Bottom => CHUNK_SIZE
  | _ => CHUNK_HEIGHT

/-- Number of planes scanned for a face: all Y layers for top/bottom, all
Z layers for north/south, all X layers for east/west. -/
def planeCount : BlockFace → Nat
  | .Top => CHUNK_HEIGHT
  | .Bottom => CHUNK_HEIGHT
  | _ => CHUNK_SIZE

/-- One emitted rectangle of `buildGreedyMesh`: the face orientation, the
plane index and the merged quad (exactly the data handed to `emitQuad`,
which turns it into six vertices). -/
structure FaceQuad where
  face : BlockFace
  plane : Nat
  quad : Quad
deriving DecidableEq

/-- The plane-by-plane greedy scan for one face of `buildGreedyMesh`. -/
def faceQuads (c : ChunkData) (world : Int → Int → Int → Nat)
    (op : Nat → Bool) (f : BlockFace) : List FaceQuad :=
  (List.range (planeCount f)).flatMap fun p =>
    (greedyScan2D (maskWidth f) (maskHeight f) (faceMask c world op f p)).map
      (fun q => ⟨f, p, q⟩)

/-- The six face passes of `Meshing::buildGreedyMesh` in source order:
Top, Bottom, South, North, East, West. -/
def allFaces : List BlockFace :=
  [.Top, .Bottom, .South, .North, .East, .West]

/-- `Meshing::buildGreedyMesh` from `Greedy.cpp` at the emitted-quad
level: for each of the six face orientations, build the visibility mask
of every plane and greedily merge it with `greedyScan2D`, emitting the
merged rectangles in scan order. -/
def buildGreedyMesh (c : ChunkData) (world : Int → Int → Int → Nat)
    (op : Nat → Bool) : List FaceQuad :=
  allFaces.flatMap (faceQuads c world op)

theorem faceMask_visible (c : ChunkData) (world : Int → Int → Int → Nat)
    (op : Nat → Bool) (f : BlockFace) (p a b : Nat) :
    (faceMask c world op f p a b).visible =
      (op (getBlockWithNeighbors c world (cellPos f p a b).1
        (cellPos f p a b).2.1 (cellPos f p a b).2.2) &&
      !(op (getBlockWithNeighbors c world (nbrPos f p a b).1
        (nbrPos f p a b).2.1 (nbrPos f p a b).2.2))) := rfl

theorem faceMask_id (c : ChunkData) (world : Int → Int → Int → Nat)
    (op : Nat → Bool) (f : BlockFace) (p a b : Nat) :
    (faceMask c world op f p a b).id =
      getBlockWithNeighbors c world (cellPos f p a b).1
        (cellPos f p a b).2.1 (cellPos f p a b).2.2 := rfl

theorem mem_faceQuads (c : ChunkData) (world : Int → Int → Int → Nat)
    (op : Nat → Bool) (f : BlockFace) (fq : FaceQuad) :
    fq ∈ faceQuads c world op f ↔
      fq.face = f ∧ fq.plane < planeCount f ∧
        fq.quad ∈ greedyScan2D (maskWidth f) (maskHeight f)
          (faceMask c world op f fq.plane) := by
  unfold faceQuads
  rw [List.mem_flatMap]
  constructor
  · rintro ⟨p, hp, hmem⟩
    rcases List.mem_map.mp hmem with ⟨q, hq, hfq⟩
    rw [← hfq]
    exact ⟨rfl, List.mem_range.mp hp, hq⟩
  · rintro ⟨hf, hp, hq⟩
    refine ⟨fq.plane, List.mem_range.mpr hp, List.mem_map.mpr
      ⟨fq.quad, hq, ?_⟩⟩
    cases fq
    simp only [] at hf ⊢
    rw [hf]

theorem mem_buildGreedyMesh (c : ChunkData)
    (world : Int → Int → Int → Nat) (op : Nat → Bool) (fq : FaceQuad) :
    fq ∈ buildGreedyMesh c world op ↔
      ∃ f ∈ allFaces, fq ∈ faceQuads c world op f := by
  unfold buildGreedyMesh
  rw [List.mem_flatMap]

/-- Bool check for one emitted quad: every mask cell the quad covers
holds an opaque block whose immediate neighbor in the face direction is
not opaque. -/
def quadVisibilityOk (c : ChunkData) (world : Int → Int → Int → Nat)
    (op : Nat → Bool) (fq : FaceQuad) : Bool :=
  (List.range fq.quad.w).all fun i =>
    (List.range fq.quad.h).all fun j =>
      let pos := cellPos fq.face fq.plane (fq.quad.x + i) (fq.quad.y + j)
      let npos := nbrPos fq.face fq.plane (fq.quad.x + i) (fq.quad.y + j)
      op (getBlockWithNeighbors c world pos.1 pos.2.1 pos.2.2) &&
        !(op (getBlockWithNeighbors c world npos.1 npos.2.1 npos.2.2))

/-- Claim C2: for every chunk, world environment and opacity predicate,
every quad emitted by `buildGreedyMesh`, on every axis and in both
directions, covers only cells whose block is opaque and whose immediate
neighbor in the face direction is not opaque; in particular no face is
ever emitted between two opaque blocks, nor between two non-opaque
blocks. -/
theorem buildGreedyMesh_faces_visible (c : ChunkData)
    (world : Int → Int → Int → Nat) (op : Nat → Bool) :
    (buildGreedyMesh c world op).all (quadVisibilityOk c world op)
      = true := by
  rw [List.all_eq_true]
  intro fq hfq
  rcases (mem_buildGreedyMesh c world op fq).mp hfq with ⟨f, hfmem, hfq2⟩
  rcases (mem_faceQuads c world op f fq).mp hfq2 with ⟨hface, hplane, hquad⟩
  unfold quadVisibilityOk
  rw [List.all_eq_true]
  intro i hi
  rw [List.all_eq_true]
  intro j hj
  rw [List.mem_range] at hi hj
  have hin : inQuad fq.quad (fq.quad.x + i) (fq.quad.y + j) :=
    ⟨by omega, by omega, by omega, by omega⟩
  have hc := greedyScan2D_cells (maskWidth f) (maskHeight f)
    (faceMask c world op f fq.plane) fq.quad hquad _ _ hin
  have hv := hc.1
  rw [faceMask_visible] at hv
  simp only []
  rw [hface]
  exact hv

theorem sum_map_le_sum_map {α : Type} (l : List α) (u v : α → Nat)
    (h : ∀ x ∈ l, u x ≤ v x) : (l.map u).sum ≤ (l.map v).sum := by
  induction l with
  | nil => simp
  | cons a l ih =>
    rw [List.map_cons, List.map_cons, List.sum_cons, List.sum_cons]
    have h1 := h a (List.mem_cons_self a l)
    have h2 := ih (fun x hx => h x (List.mem_cons_of_mem a hx))
    omega

theorem sum_map_eq_all_eq {α : Type} (l : List α) (u v : α → Nat)
    (h : ∀ x ∈ l, u x ≤ v x)
    (hs : (l.map u).sum = (l.map v).sum) : ∀ x ∈ l, u x = v x := by
  induction l with
  | nil => simp
  | cons a l ih =>
    rw [List.map_cons, List.map_cons, List.sum_cons, List.sum_cons] at hs
    have h1 := h a (List.mem_cons_self a l)
    have h2 := sum_map_le_sum_map l u v
      (fun x hx => h x (List.mem_cons_of_mem a hx))
    intro x hx
    rcases List.mem_cons.mp hx with hxa | hxa
    · rw [hxa]
      omega
    · exact ih (fun w hw => h w (List.mem_cons_of_mem a hw)) (by omega)
        x hxa

theorem sum_map_flatMap {α β : Type} (l : List α) (g : α → List β)
    (h : β → Nat) :
    ((l.flatMap g).map h).sum =
      (l.map (fun x => ((g x).map h).sum)).sum := by
  induction l with
  | nil => rfl
  | cons a l ih =>
    rw [List.flatMap_cons, List.map_append, List.sum_append, ih,
      List.map_cons, List.sum_cons]

/-- Total visible surface area covered by the emitted quads: sum of
`width * height` over all quads of the mesh. -/
def totalQuadArea (c : ChunkData) (world : Int → Int → Int → Nat)
    (op : Nat → Bool) : Nat :=
  ((buildGreedyMesh c world op).map (fun fq => fq.quad.w * fq.quad.h)).sum

/-- Number of quads emitted by the greedy mesher. -/
def totalQuadCount (c : ChunkData) (world : Int → Int → Int → Nat)
    (op : Nat → Bool) : Nat :=
  (buildGreedyMesh c world op).length

/-- The number of faces naive per-face emission would produce for one
face orientation and plane: the visible cells of that plane's mask. -/
def naiveFaceCount (c : ChunkData) (world : Int → Int → Int → Nat)
    (op : Nat → Bool) (f : BlockFace) (p : Nat) : Nat :=
  visCount (maskWidth f) (maskHeight f) (faceMask c world op f p)

/-- Naive face count summed over all planes of one face orientation. -/
def faceNaiveTotal (c : ChunkData) (world : Int → Int → Int → Nat)
    (op : Nat → Bool) (f : BlockFace) : Nat :=
  ((List.range (planeCount f)).map (naiveFaceCount c world op f)).sum

/-- Total naive per-face emission count over all six orientations. -/
def totalNaiveCount (c : ChunkData) (world : Int → Int → Int → Nat)
    (op : Nat → Bool) : Nat :=
  (allFaces.map (faceNaiveTotal c world op)).sum

/-- Bool check: for every face orientation and every plane, the summed
area of the quads emitted for that plane equals the naive face count of
that plane. -/
def layerAreasMatch (c : ChunkData) (world : Int → Int → Int → Nat)
    (op : Nat → Bool) : Bool :=
  allFaces.all fun f => (List.range (planeCount f)).all fun p =>
    ((greedyScan2D (maskWidth f) (maskHeight f)
      (faceMask c world op f p)).map (fun q => q.w * q.h)).sum ==
      naiveFaceCount c world op f p

/-- Bool check: every naively-visible face is covered by some quad
emitted for its plane (no face dropped). -/
def allVisibleFacesCovered (c : ChunkData) (world : Int → Int → Int → Nat)
    (op : Nat → Bool) : Bool :=
  allFaces.all fun f => (List.range (planeCount f)).all fun p =>
    (List.range (maskWidth f)).all fun a =>
      (List.range (maskHeight f)).all fun b =>
        !(faceMask c world op f p a b).visible ||
          (greedyScan2D (maskWidth f) (maskHeight f)
            (faceMask c world op f p)).any (fun q => decide (inQuad q a b))

/-- Bool check: a mask layer holds two adjacent visible cells of the same
material (faces the greedy merge could fuse). -/
def maskHasMergeablePair (W H : Nat) (m : Mask) : Bool :=
  (List.range W).any fun a => (List.range H).any fun b =>
    (decide (a + 1 < W) && (m a b).visible && (m (a + 1) b).visible &&
      ((m a b).id == (m (a + 1) b).id)) ||
    (decide (b + 1 < H) && (m a b).visible && (m a (b + 1)).visible &&
      ((m a b).id == (m a (b + 1)).id))

/-- Bool check: some face orientation has a plane whose mask holds two
adjacent visible cells of the same material. -/
def hasMergeablePair (c : ChunkData) (world : Int → Int → Int → Nat)
    (op : Nat → Bool) : Bool :=
  allFaces.any fun f => (List.range (planeCount f)).any fun p =>
    maskHasMergeablePair (maskWidth f) (maskHeight f)
      (faceMask c world op f p)

theorem faceQuads_area (c : ChunkData) (world : Int → Int → Int → Nat)
    (op : Nat → Bool) (f : BlockFace) :
    ((faceQuads c world op f).map (fun fq => fq.quad.w * fq.quad.h)).sum
      = faceNaiveTotal c world op f := by
  unfold faceQuads faceNaiveTotal
  rw [sum_map_flatMap]
  apply congrArg List.sum
  apply List.map_congr_left
  intro p hp
  rw [List.map_map]
  exact greedyScan2D_area (maskWidth f) (maskHeight f)
    (faceMask c world op f p)

theorem faceQuads_length_le (c : ChunkData)
    (world : Int → Int → Int → Nat) (op : Nat → Bool) (f : BlockFace) :
    (faceQuads c world op f).length ≤ faceNaiveTotal c world op f := by
  unfold faceQuads faceNaiveTotal
  rw [List.length_flatMap]
  apply sum_map_le_sum_map
  intro p hp
  show ((greedyScan2D (maskWidth f) (maskHeight f)
    (faceMask c world op f p)).map (fun q => (⟨f, p, q⟩ : FaceQuad))).length
    ≤ naiveFaceCount c world op f p
  rw [List.length_map]
  exact greedyScan2D_count_le (maskWidth f) (maskHeight f)
    (faceMask c world op f p)

theorem maskHasMergeablePair_eq_false (W H : Nat) (m : Mask)
    (heq : (greedyScan2D W H m).length = visCount W H m) :
    maskHasMergeablePair W H m = false := by
  by_contra hc
  rw [Bool.not_eq_false] at hc
  unfold maskHasMergeablePair at hc
  rw [List.any_eq_true] at hc
  obtain ⟨a, ha, hc⟩ := hc
  rw [List.any_eq_true] at hc
  obtain ⟨b, hb, hc⟩ := hc
  rw [List.mem_range] at ha hb
  rw [Bool.or_eq_true] at hc
  rcases hc with hc | hc
  · simp only [Bool.and_eq_true, decide_eq_true_eq, beq_iff_eq] at hc
    exact greedyScan2D_adjacent_h W H m heq a b hc.1.1.1 hb hc.1.1.2
      hc.1.2 hc.2
  · simp only [Bool.and_eq_true, decide_eq_true_eq, beq_iff_eq] at hc
    exact greedyScan2D_adjacent_v W H m heq a b ha hc.1.1.1 hc.1.1.2
      hc.1.2 hc.2

/-- Claim C1: for every chunk, neighbor-lookup environment and opacity
predicate, the greedy mesher's output is geometrically equivalent to
naive per-face emission — the total covered area equals the naive face
count, and this holds per face orientation and layer; every naively
visible face is covered; the number of emitted quads is at most the
naive face count; and equality of the counts is only possible when no
two adjacent visible faces of any layer share a material. -/
theorem buildGreedyMesh_geometric_equivalence (c : ChunkData)
    (world : Int → Int → Int → Nat) (op : Nat → Bool) :
    totalQuadArea c world op = totalNaiveCount c world op ∧
    layerAreasMatch c world op = true ∧
    allVisibleFacesCovered c world op = true ∧
    totalQuadCount c world op ≤ totalNaiveCount c world op ∧
    (!(totalQuadCount c world op == totalNaiveCount c world op) ||
      !(hasMergeablePair c world op)) = true := by
  have harea : totalQuadArea c world op = totalNaiveCount c world op := by
    unfold totalQuadArea totalNaiveCount buildGreedyMesh
    rw [sum_map_flatMap]
    apply congrArg List.sum
    exact List.map_congr_left (fun f _ => faceQuads_area c world op f)
  have hlen_le_face : ∀ f ∈ allFaces,
      (faceQuads c world op f).length ≤ faceNaiveTotal c world op f :=
    fun f _ => faceQuads_length_le c world op f
  have hcount_eq : totalQuadCount c world op =
      (allFaces.map (fun f => (faceQuads c world op f).length)).sum := by
    unfold totalQuadCount buildGreedyMesh
    rw [List.length_flatMap]
    rfl
  have hcount_le : totalQuadCount c world op ≤ totalNaiveCount c world op := by
    rw [hcount_eq]
    exact sum_map_le_sum_map allFaces _ _ hlen_le_face
  refine ⟨harea, ?_, ?_, hcount_le, ?_⟩
  · unfold layerAreasMatch
    rw [List.all_eq_true]
    intro f hf
    rw [List.all_eq_true]
    intro p hp
    rw [beq_iff_eq]
    exact greedyScan2D_area (maskWidth f) (maskHeight f)
      (faceMask c world op f p)
  · unfold allVisibleFacesCovered
    rw [List.all_eq_true]
    intro f hf
    rw [List.all_eq_true]
    intro p hp
    rw [List.all_eq_true]
    intro a hamem
    rw [List.all_eq_true]
    intro b hbmem
    rw [List.mem_range] at hamem hbmem
    cases hv : (faceMask c world op f p a b).visible with
    | false =>
      rw [Bool.not_false, Bool.true_or]
    | true =>
      obtain ⟨q, hq, hin⟩ := greedyScan2D_coverage (maskWidth f)
        (maskHeight f) (faceMask c world op f p) a b hamem hbmem hv
      have hany : ((greedyScan2D (maskWidth f) (maskHeight f)
          (faceMask c world op f p)).any
            (fun q => decide (inQuad q a b))) = true :=
        List.any_eq_true.mpr ⟨q, hq, by
          rw [decide_eq_true_eq]
          exact hin⟩
      rw [hany, Bool.or_true]
  · by_cases heq : totalQuadCount c world op = totalNaiveCount c world op
    · have hfaceeq := sum_map_eq_all_eq allFaces
        (fun f => (faceQuads c world op f).length)
        (faceNaiveTotal c world op) hlen_le_face
        (by rw [← hcount_eq, heq]; rfl)
      have hplane : ∀ f ∈ allFaces, ∀ p ∈ List.range (planeCount f),
          (greedyScan2D (maskWidth f) (maskHeight f)
            (faceMask c world op f p)).length =
            naiveFaceCount c world op f p := by
        intro f hf
        have hflen : (faceQuads c world op f).length =
            ((List.range (planeCount f)).map (fun p =>
              (greedyScan2D (maskWidth f) (maskHeight f)
                (faceMask c world op f p)).length)).sum := by
          unfold faceQuads
          rw [List.length_flatMap]
          apply congrArg List.sum
          apply List.map_congr_left
          intro p hp
          show ((greedyScan2D (maskWidth f) (maskHeight f)
            (faceMask c world op f p)).map
              (fun q => (⟨f, p, q⟩ : FaceQuad))).length = _
          rw [List.length_map]
        refine sum_map_eq_all_eq (List.range (planeCount f)) _
          (naiveFaceCount c world op f)
          (fun p _ => greedyScan2D_count_le (maskWidth f) (maskHeight f)
            (faceMask c world op f p)) ?_
        have hfe := hfaceeq f hf
        simp only [] at hfe
        rw [← hflen, hfe]
        rfl
      have hfalse : hasMergeablePair c world op = false := by
        unfold hasMergeablePair
        by_contra hc
        rw [Bool.not_eq_false, List.any_eq_true] at hc
        obtain ⟨f, hf, hc⟩ := hc
        rw [List.any_eq_true] at hc
        obtain ⟨p, hp, hc⟩ := hc
        have hmf := maskHasMergeablePair_eq_false (maskWidth f)
          (maskHeight f) (faceMask c world op f p) (hplane f hf p hp)
        rw [hmf] at hc
        exact absurd hc (by simp)
      rw [hfalse]
      rw [Bool.not_false, Bool.or_true]
    · have hne : (totalQuadCount c world op ==
          totalNaiveCount c world op) = false := by
        rw [beq_eq_false_iff_ne]
        exact heq
      rw [hne]
      rw [Bool.not_false, Bool.true_or]

end MCPP
